import Mathlib

set_option maxHeartbeats 2000000
set_option maxRecDepth 8000
set_option linter.unusedVariables false

/-! Shallow embedding of the Obscurafy dataset-merge scripts
(`merge_dataset_1.py`, `merge_dataset_2.py`, `export_to_coreml.py`).
Filesystems are modelled explicitly; all definitions are structural
recursion so concrete runs evaluate inside the kernel. -/

/-- Filesystem paths are lists of components (Python `pathlib.Path`). -/
abbrev FPath := List String

/-- Boolean test that the path `d` is a component-wise leading part of `p`. -/
def dirLe : FPath → FPath → Bool
  | [], _ => true
  | _ :: _, [] => false
  | a :: p, b :: q => a == b && dirLe p q

/-- The decimal digit characters, as Python `str` renders nonnegative ints. -/
def digitChar (d : Nat) : Char :=
  if d = 0 then '0' else if d = 1 then '1' else if d = 2 then '2'
  else if d = 3 then '3' else if d = 4 then '4' else if d = 5 then '5'
  else if d = 6 then '6' else if d = 7 then '7' else if d = 8 then '8' else '9'

/-- Numeric value of a digit character. -/
def digitVal (c : Char) : Nat := c.toNat - 48

/-- Value of a big-endian digit string. -/
def valOfDigits (cs : List Char) : Nat := cs.foldl (fun a c => a * 10 + digitVal c) 0

/-- Fuelled decimal rendering of a natural number (fuel-structural so the
kernel can evaluate it). -/
def natDigitsAux : Nat → Nat → List Char
  | 0, n => [digitChar n]
  | fuel + 1, n =>
    if n < 10 then [digitChar n]
    else natDigitsAux fuel (n / 10) ++ [digitChar (n % 10)]

/-- Decimal digit list of a natural number. -/
def natDigits (n : Nat) : List Char := natDigitsAux n n

/-- Model of Python `str` on a natural number. -/
def natStr (n : Nat) : String := String.mk (natDigits n)

/-- Model of Python `str` on an int. -/
def intStr (i : Int) : String :=
  if i < 0 then "-" ++ natStr i.natAbs else natStr i.natAbs

/-- Parse an all-digit character list (helper of the `int()` model). -/
def parseNatDigits (cs : List Char) : Option Nat :=
  if cs ≠ [] ∧ cs.all Char.isDigit then some (valOfDigits cs) else none

/-- Strip leading and trailing whitespace, model of Python `str.strip()`. -/
def stripChars (cs : List Char) : List Char :=
  ((cs.dropWhile Char.isWhitespace).reverse.dropWhile Char.isWhitespace).reverse

/-- Model of Python `str.strip()`. -/
def pyStrip (s : String) : String := String.mk (stripChars s.toList)

/-- Sign-and-digit scan of the `int()` model. -/
def parseIntAux : List Char → Option Int
  | [] => none
  | c :: rest =>
    if c = '-' then (parseNatDigits rest).map (fun n : Nat => -(n : Int))
    else if c = '+' then (parseNatDigits rest).map (fun n : Nat => (n : Int))
    else (parseNatDigits (c :: rest)).map (fun n : Nat => (n : Int))

/-- Best-effort model of Python `int(s)`: optional sign then decimal digits,
surrounding whitespace tolerated, anything else fails. -/
def parseIntOpt (s : String) : Option Int := parseIntAux (stripChars s.toList)

/-- Split a character list at a separator, keeping empty pieces. -/
def splitCharAux (sep : Char) : List Char → List Char → List (List Char)
  | [], acc => [acc.reverse]
  | c :: cs, acc =>
    if c = sep then acc.reverse :: splitCharAux sep cs []
    else splitCharAux sep cs (c :: acc)

/-- Model of Python `str.splitlines()` for newline-separated text: split at
each newline and drop the final empty piece. -/
def splitLines (s : String) : List String :=
  let parts := (splitCharAux '\n' s.toList []).map String.mk
  if parts.getLast? = some "" then parts.dropLast else parts

/-- Whitespace tokenizer, model of Python `str.split()` with no argument:
runs of whitespace separate tokens and produce no empty tokens. -/
def tokenizeAux : List Char → List Char → List String
  | [], acc => if acc.isEmpty then [] else [String.mk acc.reverse]
  | c :: cs, acc =>
    if c.isWhitespace then
      if acc.isEmpty then tokenizeAux cs []
      else String.mk acc.reverse :: tokenizeAux cs []
    else tokenizeAux cs (c :: acc)

/-- Model of Python `str.split()`. -/
def tokenize (s : String) : List String := tokenizeAux s.toList []

/-- Model of Python `sep.join(xs)`. -/
def joinWith (sep : String) : List String → String
  | [] => ""
  | [x] => x
  | x :: y :: xs => x ++ sep ++ joinWith sep (y :: xs)

/-- Boolean component-wise leading-part test on character lists. -/
def isPrefList : List Char → List Char → Bool
  | [], _ => true
  | _ :: _, [] => false
  | a :: as, b :: bs => a == b && isPrefList as bs

/-- Model of Python `str.endswith`. -/
def endsWithStr (sfx s : String) : Bool :=
  isPrefList sfx.toList.reverse s.toList.reverse

/-- Locate the extension inside a file name tail: chars from the last dot on,
provided the dot is not the final character. -/
def suffixAux : List Char → Option (List Char)
  | [] => none
  | '.' :: rest =>
    match suffixAux rest with
    | some s => some s
    | none => if rest = [] then none else some ('.' :: rest)
  | _ :: rest => suffixAux rest

/-- Model of Python `pathlib.Path.suffix`: extension from the last dot of the
name, empty when the dot is the first or last character or absent. -/
def suffixOf (name : String) : String :=
  match name.toList with
  | [] => ""
  | _ :: rest => ((suffixAux rest).map String.mk).getD ""

/-- ASCII lower-casing of one character. -/
def lowerChar (c : Char) : Char :=
  if 'A' ≤ c ∧ c ≤ 'Z' then Char.ofNat (c.toNat + 32) else c

/-- Model of Python `str.lower()` for ASCII data. -/
def lowerStr (s : String) : String := String.mk (s.toList.map lowerChar)

/-- Partition a token list into consecutive chunks of four, mirroring the
`vals[i:i+4]` slicing loop of both merge scripts. -/
def chunk4 : List String → List (List String)
  | [] => []
  | a :: b :: c :: d :: rest => [a, b, c, d] :: chunk4 rest
  | l => [l]

/-- Model of `collections.defaultdict(int)` increment `cc[k] += 1`,
preserving insertion order. -/
def bump : List (Int × Nat) → Int → List (Int × Nat)
  | [], k => [(k, 1)]
  | (k0, v) :: rest, k =>
    if k0 = k then (k0, v + 1) :: rest else (k0, v) :: bump rest k

/-- Sum of all tallies of a class-count table. -/
def sumValues (cc : List (Int × Nat)) : Nat := (cc.map (·.2)).sum

/-- A filesystem: the existing directories and the files with their text
content, both in creation order. -/
structure FS where
  dirs : List FPath
  files : List (FPath × String)
deriving DecidableEq, Repr

/-- File-existence test. -/
def FS.isFile (fs : FS) (p : FPath) : Bool :=
  (fs.files.find? (fun e => e.1 == p)).isSome

/-- Directory-existence test. -/
def FS.isDir (fs : FS) (p : FPath) : Bool := fs.dirs.contains p

/-- Model of `Path.exists()`. -/
def FS.pathExists (fs : FS) (p : FPath) : Bool := fs.isFile p || fs.isDir p

/-- Model of `Path.read_text()` on an existing file. -/
def FS.readFile (fs : FS) (p : FPath) : String :=
  (((fs.files.find? (fun e => e.1 == p))).map (·.2)).getD ""

/-- Model of `Path.write_text`: replaces any previous file at the path. -/
def FS.writeFile (fs : FS) (p : FPath) (c : String) : FS :=
  { fs with files := fs.files.filter (fun e => !(e.1 == p)) ++ [(p, c)] }

/-- Record one directory if it is not already present. -/
def FS.addDir (fs : FS) (p : FPath) : FS :=
  if fs.isDir p then fs else { fs with dirs := fs.dirs ++ [p] }

/-- All nonempty leading parts of a path, shortest first. -/
def prefixesOf : FPath → List FPath
  | [] => []
  | a :: rest => [a] :: (prefixesOf rest).map (fun q => a :: q)

/-- Model of `make_dirs` / `Path.mkdir(parents=True, exist_ok=True)`. -/
def FS.mkdirP (fs : FS) (p : FPath) : FS := (prefixesOf p).foldl FS.addDir fs

/-- The files strictly below a directory, in filesystem order. -/
def FS.filesUnder (fs : FS) (d : FPath) : List FPath :=
  (fs.files.filter (fun e => dirLe d e.1 && !(e.1 == d))).map (·.1)

/-- The directories strictly below a directory, in filesystem order. -/
def FS.dirsUnder (fs : FS) (d : FPath) : List FPath :=
  fs.dirs.filter (fun p => dirLe d p && !(p == d))

/-- Model of `Path.glob("**/*")`: every entry (file or directory) strictly
below the directory. -/
def FS.entriesUnder (fs : FS) (d : FPath) : List FPath :=
  fs.filesUnder d ++ fs.dirsUnder d

/-- Final component of a path (`Path.name`). -/
def lastComp (p : FPath) : String := p.getLastD ""

/-- The names `n` of immediate subdirectories `root/n`, in filesystem order. -/
def dropPre : FPath → FPath → Option FPath
  | [], p => some p
  | _ :: _, [] => none
  | a :: d, b :: p => if a = b then dropPre d p else none

/-- Immediate subdirectory names of a directory (`Path.iterdir` then
`is_dir`). -/
def FS.childDirNames (fs : FS) (root : FPath) : List String :=
  fs.dirs.filterMap (fun d =>
    match dropPre root d with
    | some [n] => some n
    | _ => none)

/-- Class-count table: `collections.defaultdict(int)` in insertion order. -/
abbrev CC := List (Int × Nat)

/-- State of one label file being rewritten: the emitted lines, the shared
class-count table, and the running `bbox_written` counter. -/
abbrev RState := List String × CC × Nat

/-- `UNIFIED_NAMES` of both merge scripts. -/
def UNIFIED_NAMES : List String := ["credit_card", "id_card", "passport"]

/-- The `DATASETS` table of `merge_dataset_1.py`: folder name to target id. -/
def DATASETS : List (String × Int) :=
  [("credit-cards.yolov11", 0), ("card-live-video.yolov11", 0),
   ("VKYC.v2i.yolov11", 1), ("passport.yolov11", 2)]

/-- `FORCED_TARGET_ID` of `merge_dataset_2.py`. -/
def FORCED_TARGET_ID : Int := 1

/-- The per-line emission of both scripts' label loop: lines of at least 5
tokens whose value-token count is divisible by 4 become one line per
4-value chunk; otherwise (or for short nonempty lines) the first token is
replaced by the target id; empty token lists emit nothing. -/
def remapLine (target_id : Int) (parts : List String) : List (List String) :=
  if parts.length ≥ 5 then
    let vals := parts.drop 1
    if vals.length % 4 = 0 then
      (chunk4 vals).map (fun bbox => intStr target_id :: bbox)
    else [intStr target_id :: parts.drop 1]
  else if parts.isEmpty then []
  else [intStr target_id :: parts.drop 1]

/-- `append_line` of `merge_dataset_1.py`: joins the tokens, tallies under
`int(tokens[0])` with the target id as fallback, and counts the box. -/
def append_line1 (target_id : Int) (st : RState) (tokens : List String) : RState :=
  let cls_id : Int :=
    match tokens with
    | [] => target_id
    | t :: _ => (parseIntOpt t).getD target_id
  (st.1 ++ [joinWith " " tokens], bump st.2.1 cls_id, st.2.2 + 1)

/-- `append_line` of `merge_dataset_2.py`: joins the tokens and always
tallies under the target id. -/
def append_line2 (target_id : Int) (st : RState) (tokens : List String) : RState :=
  (st.1 ++ [joinWith " " tokens], bump st.2.1 target_id, st.2.2 + 1)

/-- One iteration of the `for line in lines` loop shared by both scripts. -/
def processLine (ap : RState → List String → RState) (target_id : Int)
    (st : RState) (line : String) : RState :=
  let l := pyStrip line
  if l = "" then st
  else (remapLine target_id (tokenize l)).foldl ap st

/-- The whole label-rewriting loop of `merge_dataset_1.process_split` on one
file's text, continuing the shared class counts and box counter. -/
def remapFile1 (target_id : Int) (cc : CC) (bw : Nat) (content : String) : RState :=
  (splitLines content).foldl (processLine (append_line1 target_id) target_id) ([], cc, bw)

/-- The whole label-rewriting loop of `merge_dataset_2.process_split` on one
file's text. -/
def remapFile2 (target_id : Int) (cc : CC) (bw : Nat) (content : String) : RState :=
  (splitLines content).foldl (processLine (append_line2 target_id) target_id) ([], cc, bw)

/-- The text written for one label file: lines joined by newline plus a
trailing newline when at least one line was emitted. -/
def labelText (out_lines : List String) : String :=
  joinWith "\n" out_lines ++ (if out_lines.isEmpty then "" else "\n")

/-- `merge_dataset_1`'s dataset prefix: separators and dots to underscores. -/
def sanitize1 (name : String) : String :=
  String.mk (name.toList.map (fun c => if c = '/' ∨ c = '.' then '_' else c))

/-- `sanitize_prefix` of `merge_dataset_2.py`. -/
def sanitize_prefix (name : String) : String :=
  String.mk (name.toList.map (fun c => if c = '/' ∨ c = ' ' ∨ c = '.' then '_' else c))

/-- Per-dataset/per-split counters of the merge summary. -/
structure SplitStats where
  images_copied : Nat
  labels_copied : Nat
  boxes : Nat
deriving DecidableEq, Repr

/-- The `stats` mapping built by `merge`, in insertion order. -/
abbrev Stats := List (String × List (String × SplitStats))

/-- Model of the Python dict assignment `stats[name] = value`: an existing
entry is overwritten in place (Python dicts keep the original insertion
position on reassignment), a new key is appended. -/
def setStats : Stats → String → List (String × SplitStats) → Stats
  | [], nm, v => [(nm, v)]
  | (nm0, v0) :: rest, nm, v =>
    if nm0 = nm then (nm0, v) :: rest else (nm0, v0) :: setStats rest nm v

/-- Image-copy loop of `merge_dataset_1.process_split` (with its
`img.is_file()` guard). -/
def copyImages1 (dry : Bool) (out_images : FPath) (pfx : String) :
    List FPath → FS → Nat → FS × Nat
  | [], fs, ci => (fs, ci)
  | img :: rest, fs, ci =>
    if fs.isFile img then
      let dest := out_images ++ [pfx ++ "_" ++ lastComp img]
      let fs2 := if dry then fs else
        let f1 := fs.mkdirP out_images
        f1.writeFile dest (f1.readFile img)
      copyImages1 dry out_images pfx rest fs2 (ci + 1)
    else copyImages1 dry out_images pfx rest fs ci

/-- Label-copy loop of `merge_dataset_1.process_split`. -/
def copyLabels1 (dry : Bool) (out_labels : FPath) (pfx : String) (target_id : Int) :
    List FPath → FS → CC → Nat → Nat → FS × CC × Nat × Nat
  | [], fs, cc, cl, bw => (fs, cc, cl, bw)
  | lab :: rest, fs, cc, cl, bw =>
    if fs.isFile lab then
      let dest := out_labels ++ [pfx ++ "_" ++ lastComp lab]
      let fs1 := if dry then fs else fs.mkdirP out_labels
      let st := remapFile1 target_id cc bw (fs1.readFile lab)
      let fs2 := if dry then fs1 else fs1.writeFile dest (labelText st.1)
      copyLabels1 dry out_labels pfx target_id rest fs2 st.2.1 (cl + 1) st.2.2
    else copyLabels1 dry out_labels pfx target_id rest fs cc cl bw

/-- Result of one `process_split` call. -/
structure SplitOut where
  fs : FS
  cc : CC
  images_copied : Nat
  labels_copied : Nat
  boxes : Nat
deriving DecidableEq, Repr

/-- `process_split` of `merge_dataset_1.py`: enumerate both directories up
front (`glob("**/*")`, `glob("**/*.txt")`), then copy images and rewrite
labels. -/
def process_split1 (fs : FS) (dataset_dir : FPath) (split : String)
    (out_images out_labels : FPath) (pfx : String) (target_id : Int)
    (cc : CC) (dry : Bool) : SplitOut :=
  let images_dir := dataset_dir ++ [split, "images"]
  let labels_dir := dataset_dir ++ [split, "labels"]
  let image_files := if fs.pathExists images_dir then fs.entriesUnder images_dir else []
  let label_files := if fs.pathExists labels_dir then
      (fs.entriesUnder labels_dir).filter (fun p => endsWithStr ".txt" (lastComp p))
    else []
  let r1 := copyImages1 dry out_images pfx image_files fs 0
  let r2 := copyLabels1 dry out_labels pfx target_id label_files r1.1 cc 0 0
  ⟨r2.1, r2.2.1, r1.2, r2.2.2.1, r2.2.2.2⟩

/-- Output-structure creation done unconditionally at the top of both
scripts' `merge`. -/
def mkOutDirs (fs : FS) (out : FPath) : FS :=
  ["train", "valid", "test"].foldl
    (fun fs1 split => (fs1.mkdirP (out ++ [split, "images"])).mkdirP (out ++ [split, "labels"]))
    fs

/-- The single-quote character of the Python list repr in `data.yaml`. -/
def pyQuote : String := String.mk [Char.ofNat 39]

/-- The `data.yaml` text both scripts write for `UNIFIED_NAMES`. -/
def dataYamlText : String :=
  "train: train/images\nval: valid/images\ntest: test/images\n\nnc: 3\nnames: [" ++
  pyQuote ++ "credit_card" ++ pyQuote ++ ", " ++ pyQuote ++ "id_card" ++ pyQuote ++ ", " ++
  pyQuote ++ "passport" ++ pyQuote ++ "]\n"

/-- The inner split loop of `merge_dataset_1.merge`. -/
def splitLoop1 (root out : FPath) (ds_name pfx : String) (target_id : Int) (dry : Bool) :
    List String → FS → CC → List (String × SplitStats) → Nat →
      FS × CC × List (String × SplitStats) × Nat
  | [], fs, cc, acc, tot => (fs, cc, acc, tot)
  | split :: rest, fs, cc, acc, tot =>
    let r := process_split1 fs (root ++ [ds_name]) split (out ++ [split, "images"])
      (out ++ [split, "labels"]) pfx target_id cc dry
    splitLoop1 root out ds_name pfx target_id dry rest r.fs r.cc
      (acc ++ [(split, ⟨r.images_copied, r.labels_copied, r.boxes⟩)]) (tot + r.boxes)

/-- The dataset loop of `merge_dataset_1.merge` (skipping absent folders). -/
def mergeLoop1 (root out : FPath) (dry : Bool) :
    List (String × Int) → FS → Stats → CC → Nat → FS × Stats × CC × Nat
  | [], fs, stats, cc, tot => (fs, stats, cc, tot)
  | (ds_name, target_id) :: rest, fs, stats, cc, tot =>
    if fs.pathExists (root ++ [ds_name]) then
      let r := splitLoop1 root out ds_name (sanitize1 ds_name) target_id dry
        ["train", "valid", "test"] fs cc [] 0
      mergeLoop1 root out dry rest r.1 (setStats stats ds_name r.2.2.1) r.2.1 (tot + r.2.2.2)
    else mergeLoop1 root out dry rest fs stats cc tot

/-- Result of a `merge` run. -/
structure MergeOut where
  fs : FS
  stats : Stats
  class_counts : CC
  total_boxes : Nat
deriving DecidableEq, Repr

/-- `merge` of `merge_dataset_1.py`. -/
def merge1 (fs : FS) (root out : FPath) (dry_run : Bool) : MergeOut :=
  let fs0 := mkOutDirs fs out
  let r := mergeLoop1 root out dry_run DATASETS fs0 [] [] 0
  let fs2 := if dry_run then r.1 else r.1.writeFile (out ++ ["data.yaml"]) dataYamlText
  ⟨fs2, r.2.1, r.2.2.1, r.2.2.2⟩

/-- `SPLIT_ALIASES` of `merge_dataset_2.py`. -/
def SPLIT_ALIASES (key : String) : List String :=
  if key = "train" then ["train"]
  else if key = "valid" then ["valid", "val"]
  else if key = "test" then ["test"]
  else []

/-- `IMG_EXTS` of `merge_dataset_2.py`. -/
def IMG_EXTS : List String := [".jpg", ".jpeg", ".png", ".bmp", ".webp", ".tif", ".tiff"]

/-- Alias scan of `find_split_dirs`. -/
def findSplitAux (fs : FS) (dataset_dir : FPath) : List String → Option FPath × Option FPath
  | [] => (none, none)
  | al :: rest =>
    let images_dir := dataset_dir ++ [al, "images"]
    let labels_dir := dataset_dir ++ [al, "labels"]
    if fs.pathExists images_dir && fs.isDir images_dir then
      (some images_dir, if fs.pathExists labels_dir then some labels_dir else none)
    else findSplitAux fs dataset_dir rest

/-- `find_split_dirs` of `merge_dataset_2.py`. -/
def find_split_dirs (fs : FS) (dataset_dir : FPath) (split_key : String) :
    Option FPath × Option FPath :=
  findSplitAux fs dataset_dir (SPLIT_ALIASES split_key)

/-- `iter_images` of `merge_dataset_2.py`: files below the directory whose
lower-cased extension is a recognized image extension. -/
def iter_images (fs : FS) (images_dir : FPath) : List FPath :=
  (fs.filesUnder images_dir).filter
    (fun p => IMG_EXTS.contains (lowerStr (suffixOf (lastComp p))))

/-- `iter_label_files` of `merge_dataset_2.py`. -/
def iter_label_files (fs : FS) : Option FPath → List FPath
  | none => []
  | some labels_dir =>
    (fs.filesUnder labels_dir).filter (fun p => endsWithStr ".txt" (lastComp p))

/-- Fuelled glob matcher for one name component: `*` matches any run, `?`
any single character, anything else itself. -/
def globMatchAux : Nat → List Char → List Char → Bool
  | 0, _, _ => false
  | fuel + 1, pat, s =>
    match pat, s with
    | [], [] => true
    | [], _ :: _ => false
    | '*' :: ps, [] => globMatchAux fuel ps []
    | '*' :: ps, c :: cs =>
      globMatchAux fuel ps (c :: cs) || globMatchAux fuel ('*' :: ps) cs
    | '?' :: _, [] => false
    | '?' :: ps, _ :: cs => globMatchAux fuel ps cs
    | _ :: _, [] => false
    | p :: ps, c :: cs => p == c && globMatchAux fuel ps cs

/-- Model of `root.glob(pattern)` name matching for single-component
patterns. -/
def matchName (pat name : String) : Bool :=
  globMatchAux (pat.toList.length + name.toList.length + 1) pat.toList name.toList

/-- The `usable` filter of `resolve_datasets`: all three split keys must
resolve an images directory. -/
def splitsComplete (fs : FS) (d : FPath) : Bool :=
  (find_split_dirs fs d "train").1.isSome &&
  (find_split_dirs fs d "valid").1.isSome &&
  (find_split_dirs fs d "test").1.isSome

/-- `resolve_datasets` of `merge_dataset_2.py`: candidates from the glob
patterns (or suffix discovery), then the split-completeness filter. -/
def resolve_datasets (fs : FS) (root : FPath) (dataset_globs : Option (List String)) :
    List FPath :=
  let found : List FPath :=
    match dataset_globs with
    | some pats =>
      pats.flatMap (fun pat =>
        ((fs.childDirNames root).filter (fun n => matchName pat n)).map (fun n => root ++ [n]))
    | none =>
      ((fs.childDirNames root).filter (fun n => endsWithStr ".yolov11" (lowerStr n))).map
        (fun n => root ++ [n])
  found.filter (fun d => splitsComplete fs d)

/-- Image-copy loop of `merge_dataset_2.process_split` (already filtered by
`iter_images`, no further file test). -/
def copyImages2 (dry : Bool) (out_images : FPath) (pfx : String) :
    List FPath → FS → Nat → FS × Nat
  | [], fs, ci => (fs, ci)
  | img :: rest, fs, ci =>
    let dest := out_images ++ [pfx ++ "_" ++ lastComp img]
    let fs2 := if dry then fs else
      let f1 := fs.mkdirP out_images
      f1.writeFile dest (f1.readFile img)
    copyImages2 dry out_images pfx rest fs2 (ci + 1)

/-- Label-copy loop of `merge_dataset_2.process_split`. -/
def copyLabels2 (dry : Bool) (out_labels : FPath) (pfx : String) (target_id : Int) :
    List FPath → FS → CC → Nat → Nat → FS × CC × Nat × Nat
  | [], fs, cc, cl, bw => (fs, cc, cl, bw)
  | lab :: rest, fs, cc, cl, bw =>
    let dest := out_labels ++ [pfx ++ "_" ++ lastComp lab]
    let fs1 := if dry then fs else fs.mkdirP out_labels
    let st := remapFile2 target_id cc bw (fs1.readFile lab)
    let fs2 := if dry then fs1 else fs1.writeFile dest (labelText st.1)
    copyLabels2 dry out_labels pfx target_id rest fs2 st.2.1 (cl + 1) st.2.2

/-- `process_split` of `merge_dataset_2.py`. -/
def process_split2 (fs : FS) (dataset_dir : FPath) (split_key : String)
    (out_images out_labels : FPath) (pfx : String) (target_id : Int)
    (cc : CC) (dry : Bool) : SplitOut :=
  match find_split_dirs fs dataset_dir split_key with
  | (none, _) => ⟨fs, cc, 0, 0, 0⟩
  | (some images_dir, labels_dir_opt) =>
    let imgs := iter_images fs images_dir
    let r1 := copyImages2 dry out_images pfx imgs fs 0
    match labels_dir_opt with
    | none => ⟨r1.1, cc, r1.2, 0, 0⟩
    | some labels_dir =>
      let lbls := iter_label_files r1.1 (some labels_dir)
      let r2 := copyLabels2 dry out_labels pfx target_id lbls r1.1 cc 0 0
      ⟨r2.1, r2.2.1, r1.2, r2.2.2.1, r2.2.2.2⟩

/-- The inner split loop of `merge_dataset_2.merge`. -/
def splitLoop2 (out ds_path : FPath) (pfx : String) (target_id : Int) (dry : Bool) :
    List String → FS → CC → List (String × SplitStats) → Nat →
      FS × CC × List (String × SplitStats) × Nat
  | [], fs, cc, acc, tot => (fs, cc, acc, tot)
  | split :: rest, fs, cc, acc, tot =>
    let r := process_split2 fs ds_path split (out ++ [split, "images"])
      (out ++ [split, "labels"]) pfx target_id cc dry
    splitLoop2 out ds_path pfx target_id dry rest r.fs r.cc
      (acc ++ [(split, ⟨r.images_copied, r.labels_copied, r.boxes⟩)]) (tot + r.boxes)

/-- The dataset loop of `merge_dataset_2.merge`. -/
def mergeLoop2 (out : FPath) (dry : Bool) :
    List FPath → FS → Stats → CC → Nat → FS × Stats × CC × Nat
  | [], fs, stats, cc, tot => (fs, stats, cc, tot)
  | ds_path :: rest, fs, stats, cc, tot =>
    let r := splitLoop2 out ds_path ( sanitize_prefix (lastComp ds_path)) FORCED_TARGET_ID dry
      ["train", "valid", "test"] fs cc [] 0
    mergeLoop2 out dry rest r.1 (setStats stats (lastComp ds_path) r.2.2.1) r.2.1 (tot + r.2.2.2)

/-- `merge` of `merge_dataset_2.py`. -/
def merge2 (fs : FS) (root out : FPath) (datasets : List FPath) (dry_run : Bool) : MergeOut :=
  let fs0 := mkOutDirs fs out
  let r := mergeLoop2 out dry_run datasets fs0 [] [] 0
  let fs2 := if dry_run then r.1 else r.1.writeFile (out ++ ["data.yaml"]) dataYamlText
  ⟨fs2, r.2.1, r.2.2.1, r.2.2.2⟩

/-- `Path.stem`: the final component without its extension. -/
def stemOf (name : String) : String :=
  String.mk (name.toList.take (name.toList.length - (suffixOf name).toList.length))

/-- The `f"{stem}_{i}{suffix}"` candidate name of `next_free_path`. -/
def candidateName (stem sfx : String) (i : Nat) : String :=
  stem ++ "_" ++ natStr i ++ sfx

/-- The `while True` search of `next_free_path`, fuelled by more candidates
than the filesystem has entries. -/
def nextFreeAux (fs : FS) (parent : FPath) (stem sfx : String) : Nat → Nat → FPath
  | 0, i => parent ++ [candidateName stem sfx i]
  | fuel + 1, i =>
    let candidate := parent ++ [candidateName stem sfx i]
    if fs.pathExists candidate then nextFreeAux fs parent stem sfx fuel (i + 1)
    else candidate

/-- `next_free_path` of `export_to_coreml.py`. -/
def next_free_path (fs : FS) (base : FPath) : FPath :=
  if fs.pathExists base then
    nextFreeAux fs base.dropLast (stemOf (lastComp base)) (suffixOf (lastComp base))
      (fs.files.length + fs.dirs.length + 1) 1
  else base

/-- Model of `shutil.copytree`: the destination directory plus every entry
below the source mirrored below the destination. -/
def FS.copyTree (fs : FS) (src dst : FPath) : FS :=
  { dirs := fs.dirs ++ [dst] ++
      fs.dirs.filterMap (fun d => (dropPre src d).map (fun rest => dst ++ rest)),
    files := fs.files ++
      fs.files.filterMap (fun e => (dropPre src e.1).map (fun rest => (dst ++ rest, e.2))) }

/-- Outcome of the export tail: a final filesystem and artifact path, or a
`sys.exit` code. -/
inductive ExportOutcome where
  | done (fs : FS) (target : FPath)
  | exit (code : Nat)
deriving DecidableEq, Repr

/-- The copy block of `export_to_coreml.main` once the target is chosen. -/
def copyStep (fs : FS) (produced target : FPath) : ExportOutcome :=
  if produced ≠ target then
    if fs.isDir produced then
      if fs.pathExists target then .exit 3
      else .done (fs.copyTree produced target) target
    else .done (fs.writeFile target (fs.readFile produced)) target
  else .done fs target

/-- The tail of `export_to_coreml.main` after the Ultralytics export call:
missing produced artifact exits 2, otherwise the suffixed free target name
is chosen and the artifact copied. -/
def exportFinish (fs : FS) (produced cwd : FPath) (outname : String) : ExportOutcome :=
  if !(fs.pathExists produced) then .exit 2
  else
    let ext := suffixOf (lastComp produced)
    let target := next_free_path fs (cwd ++ [outname ++ ext])
    copyStep fs produced target

/-! ### Decimal rendering and parsing round-trip -/

theorem digitVal_digitChar {d : Nat} (h : d < 10) : digitVal (digitChar d) = d := by
  interval_cases d <;> decide

theorem digitChar_spec (d : Nat) :
    (digitChar d).isDigit = true ∧ (digitChar d).isWhitespace = false ∧
      digitChar d ≠ '-' ∧ digitChar d ≠ '+' := by
  unfold digitChar; split_ifs <;> decide

theorem natDigitsAux_shape (fuel : Nat) :
    ∀ n, ∀ c ∈ natDigitsAux fuel n, ∃ d, c = digitChar d := by
  induction fuel with
  | zero => intro n c hc; simp [natDigitsAux] at hc; exact ⟨n, hc⟩
  | succ fuel ih =>
    intro n c hc
    by_cases h : n < 10
    · simp [natDigitsAux, h] at hc; exact ⟨n, hc⟩
    · simp [natDigitsAux, h] at hc
      rcases hc with hc | hc
      · exact ih _ c hc
      · exact ⟨n % 10, hc⟩

theorem natDigitsAux_ne_nil (fuel n : Nat) : natDigitsAux fuel n ≠ [] := by
  cases fuel with
  | zero => simp [natDigitsAux]
  | succ fuel =>
    by_cases h : n < 10 <;> simp [natDigitsAux, h]

theorem valOfDigits_append (cs : List Char) (c : Char) :
    valOfDigits (cs ++ [c]) = valOfDigits cs * 10 + digitVal c := by
  simp [valOfDigits, List.foldl_append]

theorem valOfDigits_natDigitsAux : ∀ fuel n, n ≤ fuel →
    valOfDigits (natDigitsAux fuel n) = n := by
  intro fuel
  induction fuel with
  | zero =>
    intro n h
    interval_cases n
    decide
  | succ fuel ih =>
    intro n h
    by_cases h10 : n < 10
    · simp [natDigitsAux, h10, valOfDigits, digitVal_digitChar h10]
    · have hdiv : n / 10 < n := Nat.div_lt_self (by omega) (by norm_num)
      simp only [natDigitsAux, if_neg h10]
      rw [valOfDigits_append, ih _ (by omega), digitVal_digitChar (Nat.mod_lt _ (by norm_num))]
      omega

theorem valOfDigits_natDigits (n : Nat) : valOfDigits (natDigits n) = n :=
  valOfDigits_natDigitsAux n n le_rfl

theorem natDigits_inj {a b : Nat} (h : natDigits a = natDigits b) : a = b := by
  have := valOfDigits_natDigits a
  rw [h, valOfDigits_natDigits] at this
  omega

theorem parseNatDigits_natDigits (n : Nat) : parseNatDigits (natDigits n) = some n := by
  have hne : natDigits n ≠ [] := natDigitsAux_ne_nil n n
  have hall : (natDigits n).all Char.isDigit = true := by
    rw [List.all_eq_true]
    intro c hc
    obtain ⟨d, rfl⟩ := natDigitsAux_shape n n c hc
    exact (digitChar_spec d).1
  rw [parseNatDigits, if_pos ⟨hne, hall⟩, valOfDigits_natDigits]

theorem dropWhile_eq_self_of_none {p : Char → Bool} :
    ∀ {l : List Char}, (∀ c ∈ l, p c = false) → l.dropWhile p = l := by
  intro l h
  cases l with
  | nil => rfl
  | cons a l => rw [List.dropWhile_cons, h a (by simp)]; simp

theorem stripChars_eq_self {cs : List Char} (h : ∀ c ∈ cs, c.isWhitespace = false) :
    stripChars cs = cs := by
  unfold stripChars
  rw [dropWhile_eq_self_of_none h, dropWhile_eq_self_of_none (by
    intro c hc; exact h c (by simpa using hc)), List.reverse_reverse]

theorem natStr_toList (n : Nat) : (natStr n).toList = natDigits n := rfl

theorem neg_natStr_toList (n : Nat) : ("-" ++ natStr n).toList = '-' :: natDigits n := rfl

theorem parseIntOpt_intStr (i : Int) : parseIntOpt (intStr i) = some i := by
  have hchars : ∀ c ∈ natDigits i.natAbs, c.isWhitespace = false := by
    intro c hc
    obtain ⟨d, rfl⟩ := natDigitsAux_shape i.natAbs i.natAbs c hc
    exact (digitChar_spec d).2.1
  by_cases hneg : i < 0
  · rw [intStr, if_pos hneg, parseIntOpt, neg_natStr_toList,
      stripChars_eq_self (by
        intro c hc
        rcases List.mem_cons.mp hc with rfl | hc
        · decide
        · exact hchars c hc)]
    simp only [parseIntAux, parseNatDigits_natDigits, eq_self_iff_true, if_true,
      Option.map_some']
    congr 1
    rw [Int.ofNat_natAbs_of_nonpos (by omega)]
    ring
  · rw [intStr, if_neg hneg, parseIntOpt, natStr_toList, stripChars_eq_self hchars]
    show parseIntAux (natDigitsAux i.natAbs i.natAbs) = some i
    obtain ⟨c, rest, hcons⟩ := List.exists_cons_of_ne_nil (natDigitsAux_ne_nil i.natAbs i.natAbs)
    have hshape : ∀ x ∈ natDigitsAux i.natAbs i.natAbs, ∃ d, x = digitChar d :=
      natDigitsAux_shape i.natAbs i.natAbs
    obtain ⟨d, hd⟩ := hshape c (by rw [hcons]; simp)
    rw [hcons, parseIntAux,
      if_neg (by rw [hd]; exact (digitChar_spec d).2.2.1),
      if_neg (by rw [hd]; exact (digitChar_spec d).2.2.2)]
    rw [← hcons]
    show (parseNatDigits (natDigits i.natAbs)).map (fun n : Nat => (n : Int)) = some i
    rw [parseNatDigits_natDigits]
    simp only [Option.map_some']
    congr 1
    exact Int.natAbs_of_nonneg (by omega)

theorem natStr_inj {a b : Nat} (h : natStr a = natStr b) : a = b := by
  apply natDigits_inj
  have : (natStr a).toList = (natStr b).toList := by rw [h]
  simpa [natStr_toList] using this

/-! ### The per-line remapper -/

theorem chunk4_cons4 (a b c d : String) (rest : List String) :
    chunk4 (a :: b :: c :: d :: rest) = [a, b, c, d] :: chunk4 rest := rfl

theorem chunk4_spec : ∀ (n : Nat) (l : List String), l.length = 4 * n →
    (chunk4 l).length = n ∧
      ∀ i < n, (chunk4 l)[i]? = some ((l.drop (4 * i)).take 4) := by
  intro n
  induction n with
  | zero =>
    intro l hl
    have : l = [] := List.eq_nil_of_length_eq_zero (by omega)
    subst this
    exact ⟨rfl, by omega⟩
  | succ n ih =>
    intro l hl
    obtain ⟨a, l, rfl⟩ := List.exists_cons_of_ne_nil
      (show l ≠ [] by intro h; subst h; simp at hl)
    obtain ⟨b, l, rfl⟩ := List.exists_cons_of_ne_nil
      (show l ≠ [] by intro h; subst h; simp at hl; omega)
    obtain ⟨c, l, rfl⟩ := List.exists_cons_of_ne_nil
      (show l ≠ [] by intro h; subst h; simp at hl; omega)
    obtain ⟨d, l, rfl⟩ := List.exists_cons_of_ne_nil
      (show l ≠ [] by intro h; subst h; simp at hl; omega)
    have hlr : l.length = 4 * n := by simp at hl; omega
    obtain ⟨ihl, ihi⟩ := ih l hlr
    rw [chunk4_cons4]
    refine ⟨by simp [ihl], ?_⟩
    intro i hi
    cases i with
    | zero => simp
    | succ i =>
      have h4 : 4 * (i + 1) = 4 * i + 1 + 1 + 1 + 1 := by ring
      rw [List.getElem?_cons_succ, ihi i (by omega), h4]
      simp [List.drop_succ_cons]

/-- C2: a line of at least five tokens whose value-token count is divisible
by four is emitted as one line per consecutive 4-value chunk, each headed by
the target id, values kept in order and verbatim. -/
theorem c2_chunked_emission (target_id : Int) (parts : List String)
    (h5 : 5 ≤ parts.length) (hmod : (parts.length - 1) % 4 = 0) :
    (remapLine target_id parts).length = (parts.length - 1) / 4 ∧
      ∀ i < (parts.length - 1) / 4,
        (remapLine target_id parts)[i]? =
          some (intStr target_id :: ((parts.drop 1).drop (4 * i)).take 4) := by
  have hlen : (parts.drop 1).length = parts.length - 1 := by simp
  have hmul : (parts.drop 1).length = 4 * ((parts.length - 1) / 4) := by omega
  obtain ⟨hl, hidx⟩ := chunk4_spec _ _ hmul
  unfold remapLine
  rw [if_pos (by omega), if_pos (by omega)]
  constructor
  · simpa using hl
  · intro i hi
    rw [List.getElem?_map, hidx i hi]
    rfl

/-- Witness for C2 at a 9-token line: exactly two output lines. -/
theorem c2_chunked_emission_witness :
    (remapLine 2 ["0", "a", "b", "c", "d", "e", "f", "g", "h"]).length = 2 ∧
      (remapLine 2 ["0", "a", "b", "c", "d", "e", "f", "g", "h"])[1]? =
        some (intStr 2 ::
          (((["0", "a", "b", "c", "d", "e", "f", "g", "h"] : List String).drop 1).drop
            (4 * 1)).take 4) := by
  refine ⟨?_, ?_⟩
  · exact (c2_chunked_emission 2 _ (by decide) (by decide)).1
  · exact (c2_chunked_emission 2 _ (by decide) (by decide)).2 1 (by decide)

/-- C3: a line of at least five tokens whose value-token count is not
divisible by four is emitted as the single original token list with only the
class token replaced by the target id. -/
theorem c3_fallback_single_line (target_id : Int) (parts : List String)
    (h5 : 5 ≤ parts.length) (hmod : (parts.length - 1) % 4 ≠ 0) :
    remapLine target_id parts = [intStr target_id :: parts.drop 1] := by
  have hlen : (parts.drop 1).length = parts.length - 1 := by simp
  unfold remapLine
  rw [if_pos (by omega), if_neg (by omega)]

/-- Witness for C3 at a 6-token line. -/
theorem c3_fallback_single_line_witness :
    remapLine 1 ["7", "u", "v", "w", "x", "y"] =
      [intStr 1 :: (["7", "u", "v", "w", "x", "y"] : List String).drop 1] :=
  c3_fallback_single_line 1 _ (by decide) (by decide)

theorem remapLine_head (target_id : Int) (parts : List String) :
    ∀ toks ∈ remapLine target_id parts, ∃ rest, toks = intStr target_id :: rest := by
  intro toks h
  simp only [remapLine] at h
  split_ifs at h
  · obtain ⟨bbox, _, rfl⟩ := List.mem_map.mp h
    exact ⟨bbox, rfl⟩
  · obtain rfl := List.mem_singleton.mp h
    exact ⟨_, rfl⟩
  · simp at h
  · obtain rfl := List.mem_singleton.mp h
    exact ⟨_, rfl⟩

theorem append_line_eq (target_id : Int) (st : RState) (toks : List String)
    (h : ∃ rest, toks = intStr target_id :: rest) :
    append_line1 target_id st toks = append_line2 target_id st toks := by
  obtain ⟨rest, rfl⟩ := h
  simp only [append_line1, append_line2, parseIntOpt_intStr, Option.getD_some]

theorem foldl_append_line_eq (target_id : Int) :
    ∀ (L : List (List String)) (st : RState),
      (∀ toks ∈ L, ∃ rest, toks = intStr target_id :: rest) →
      L.foldl (append_line1 target_id) st = L.foldl (append_line2 target_id) st := by
  intro L
  induction L with
  | nil => intro st _; rfl
  | cons t L ih =>
    intro st h
    simp only [List.foldl_cons]
    rw [append_line_eq _ _ _ (h t (by simp))]
    exact ih _ (fun toks ht => h toks (by simp [ht]))

theorem processLine_eq (target_id : Int) (st : RState) (line : String) :
    processLine (append_line1 target_id) target_id st line =
      processLine (append_line2 target_id) target_id st line := by
  simp only [processLine]
  split_ifs with h
  · rfl
  · exact foldl_append_line_eq _ _ _ (remapLine_head _ _)

theorem remapFile_eq (target_id : Int) (cc : CC) (bw : Nat) (content : String) :
    remapFile1 target_id cc bw content = remapFile2 target_id cc bw content := by
  unfold remapFile1 remapFile2
  generalize splitLines content = lines
  generalize (([] : List String), cc, bw) = st
  induction lines generalizing st with
  | nil => rfl
  | cons l lines ih =>
    simp only [List.foldl_cons, processLine_eq]
    exact ih _

/-- C4, counterexample: in `merge_dataset_1` the fallback path (6-token line
with original class 7, target id 1) tallies under the target id 1, not under
the original class id 7 as claimed. -/
theorem c4_counterexample :
    (remapFile1 1 [] 0 "7 0.1 0.2 0.3 0.4 0.5").2.1 = [(1, 1)] ∧
      (remapFile1 1 [] 0 "7 0.1 0.2 0.3 0.4 0.5").2.1 ≠ [((7 : Int), 1)] := by
  constructor <;> decide

/-- C4 as amended: because `merge_dataset_1` overwrites the class token with
the target id before `append_line` parses it, its best-effort parse always
yields the target id, so both scripts' label processing (lines, tallies and
box counts) coincide on every input. -/
theorem c4_tally_policies_coincide (target_id : Int) (cc : CC) (bw : Nat)
    (content : String) :
    remapFile1 target_id cc bw content = remapFile2 target_id cc bw content :=
  remapFile_eq target_id cc bw content

theorem foldl_processLine_blank (ap : RState → List String → RState) (target_id : Int) :
    ∀ (lines : List String) (st : RState), (∀ l ∈ lines, pyStrip l = "") →
      lines.foldl (processLine ap target_id) st = st := by
  intro lines
  induction lines with
  | nil => intro st _; rfl
  | cons l lines ih =>
    intro st h
    simp only [List.foldl_cons]
    rw [processLine, if_pos (h l (by simp))]
    exact ih _ (fun x hx => h x (by simp [hx]))

/-- C7: the text written for a label file is the emitted lines joined by
newline with a trailing newline exactly when at least one line was emitted;
an input whose lines are all blank (in particular an empty file) emits
nothing, writes empty text, and leaves the tallies and box counter
untouched, in both scripts. -/
theorem c7_label_output (target_id : Int) (cc : CC) (bw : Nat) (content : String) :
    (((remapFile1 target_id cc bw content).1 ≠ [] →
        labelText (remapFile1 target_id cc bw content).1 =
          joinWith "\n" (remapFile1 target_id cc bw content).1 ++ "\n") ∧
      ((remapFile1 target_id cc bw content).1 = [] →
        labelText (remapFile1 target_id cc bw content).1 = "")) ∧
    ((∀ l ∈ splitLines content, pyStrip l = "") →
      remapFile1 target_id cc bw content = ([], cc, bw) ∧
        remapFile2 target_id cc bw content = ([], cc, bw) ∧
        labelText [] = "") := by
  refine ⟨⟨?_, ?_⟩, ?_⟩
  · intro h
    rw [labelText, if_neg (by simpa using h)]
  · intro h
    rw [h]
    rfl
  · intro h
    exact ⟨foldl_processLine_blank _ _ _ _ h, foldl_processLine_blank _ _ _ _ h, rfl⟩

/-- Witness for C7 on a whitespace-only two-line file. -/
theorem c7_label_output_witness :
    remapFile1 0 [] 0 " \n\t " = ([], [], 0) ∧ remapFile2 0 [] 0 " \n\t " = ([], [], 0) ∧
      labelText [] = "" :=
  (c7_label_output 0 [] 0 " \n\t ").2 (by decide)

/-! ### Dataset resolution and image enumeration -/

/-- A dataset directory with `train` and `valid` splits but no `test`. -/
def fsNoTest : FS :=
  ⟨[["r"], ["r", "ds"], ["r", "ds", "train"], ["r", "ds", "train", "images"],
    ["r", "ds", "valid"], ["r", "ds", "valid", "images"]], []⟩

/-- C5, counterexample: a directory matched by an explicit glob pattern but
missing the `test` split is excluded by `resolve_datasets`, so pattern mode
does perform structural validation, contrary to the claim. -/
theorem c5_counterexample :
    fsNoTest.isDir ["r", "ds"] = true ∧ matchName "ds" "ds" = true ∧
      resolve_datasets fsNoTest ["r"] (some ["ds"]) = [] := by
  refine ⟨by decide, by decide, by decide⟩

/-- C5 as amended: the split-completeness filter applies to both modes; a
pattern-matched directory is kept only when all three splits resolve, and
the two modes differ only in candidate selection (pattern match versus the
recognized name suffix). -/
theorem c5_resolution_validation (fs : FS) (root : FPath) (pats : List String) (d : FPath) :
    (d ∈ resolve_datasets fs root (some pats) ↔
      (∃ n ∈ fs.childDirNames root,
        (∃ pat ∈ pats, matchName pat n = true) ∧ d = root ++ [n]) ∧
        splitsComplete fs d = true) ∧
    (d ∈ resolve_datasets fs root none ↔
      (∃ n ∈ fs.childDirNames root,
        endsWithStr ".yolov11" (lowerStr n) = true ∧ d = root ++ [n]) ∧
        splitsComplete fs d = true) := by
  constructor
  · simp only [resolve_datasets, List.mem_filter, List.mem_flatMap, List.mem_map,
      List.mem_filter]
    constructor
    · rintro ⟨⟨pat, hpat, n, ⟨hn, hmatch⟩, rfl⟩, hc⟩
      exact ⟨⟨n, hn, ⟨pat, hpat, hmatch⟩, rfl⟩, hc⟩
    · rintro ⟨⟨n, hn, ⟨pat, hpat, hmatch⟩, rfl⟩, hc⟩
      exact ⟨⟨pat, hpat, n, ⟨hn, hmatch⟩, rfl⟩, hc⟩
  · simp only [resolve_datasets, List.mem_filter, List.mem_map, List.mem_filter]
    constructor
    · rintro ⟨⟨n, ⟨hn, hsuf⟩, rfl⟩, hc⟩
      exact ⟨⟨n, hn, hsuf, rfl⟩, hc⟩
    · rintro ⟨⟨n, hn, hsuf, rfl⟩, hc⟩
      exact ⟨⟨n, ⟨hn, hsuf⟩, rfl⟩, hc⟩

/-- A complete dataset directory for the C5 witness. -/
def fsComplete : FS :=
  ⟨[["r"], ["r", "ds"], ["r", "ds", "train"], ["r", "ds", "train", "images"],
    ["r", "ds", "valid"], ["r", "ds", "valid", "images"],
    ["r", "ds", "test"], ["r", "ds", "test", "images"]], []⟩

/-- Witness for C5: a pattern-matched, split-complete directory is resolved. -/
theorem c5_resolution_validation_witness :
    ["r", "ds"] ∈ resolve_datasets fsComplete ["r"] (some ["ds"]) :=
  (c5_resolution_validation fsComplete ["r"] ["ds"] ["r", "ds"]).1.mpr
    ⟨⟨"ds", by decide, ⟨"ds", by decide, by decide⟩, rfl⟩, by decide⟩

/-- A split whose images directory holds a file with an unrecognized
extension. -/
def fsOddExt : FS :=
  ⟨[["d"], ["d", "train"], ["d", "train", "images"]],
   [(["d", "train", "images", "a.xyz"], "x")]⟩

/-- C8, counterexample: `merge_dataset_1.process_split` enumerates and counts
a file whose extension is not a recognized image extension. -/
theorem c8_counterexample :
    (process_split1 fsOddExt ["d"] "train" ["o", "train", "images"]
        ["o", "train", "labels"] "p" 0 [] true).images_copied = 1 ∧
      IMG_EXTS.contains (lowerStr (suffixOf "a.xyz")) = false := by
  refine ⟨by decide, by decide⟩

theorem copyImages1_dry_count (oi : FPath) (pfx : String) :
    ∀ (l : List FPath) (fs : FS) (ci : Nat),
      copyImages1 true oi pfx l fs ci =
        (fs, ci + (l.filter (fun p => fs.isFile p)).length) := by
  intro l
  induction l with
  | nil => intro fs ci; simp [copyImages1]
  | cons img rest ih =>
    intro fs ci
    by_cases h : fs.isFile img
    · rw [copyImages1, if_pos h]
      simp only [if_pos rfl]
      rw [ih]
      simp [List.filter_cons, h]
      omega
    · rw [copyImages1, if_neg h]
      rw [ih]
      simp [List.filter_cons, h]

/-- C8 as amended: `merge_dataset_2.iter_images` enumerates exactly the files
below the directory whose lower-cased extension is recognized, while
`merge_dataset_1.process_split` copies and counts every file below the images
directory with no extension restriction. -/
theorem c8_image_enumeration (fs : FS) (d p : FPath) (dataset_dir : FPath) (split : String)
    (out_images out_labels : FPath) (pfx : String) (target_id : Int) (cc : CC) :
    (p ∈ iter_images fs d ↔
      (∃ content, (p, content) ∈ fs.files) ∧ (dirLe d p && !(p == d)) = true ∧
        IMG_EXTS.contains (lowerStr (suffixOf (lastComp p))) = true) ∧
    (process_split1 fs dataset_dir split out_images out_labels pfx target_id cc
        true).images_copied =
      ((if fs.pathExists (dataset_dir ++ [split, "images"]) then
          fs.entriesUnder (dataset_dir ++ [split, "images"]) else []).filter
        (fun q => fs.isFile q)).length := by
  constructor
  · simp only [iter_images, FS.filesUnder, List.mem_filter, List.mem_map]
    constructor
    · rintro ⟨⟨e, ⟨hmem, hcond⟩, rfl⟩, hext⟩
      exact ⟨⟨e.2, hmem⟩, hcond, hext⟩
    · rintro ⟨⟨content, hmem⟩, hcond, hext⟩
      exact ⟨⟨(p, content), ⟨hmem, hcond⟩, rfl⟩, hext⟩
  · simp only [process_split1]
    rw [copyImages1_dry_count]
    simp

/-! ### Dry-run frame behaviour -/

theorem copyImages1_dry_fs (oi : FPath) (pfx : String) (l : List FPath) (fs : FS) (ci : Nat) :
    (copyImages1 true oi pfx l fs ci).1 = fs := by
  rw [copyImages1_dry_count]

theorem copyImages2_dry (oi : FPath) (pfx : String) :
    ∀ (l : List FPath) (fs : FS) (ci : Nat),
      copyImages2 true oi pfx l fs ci = (fs, ci + l.length) := by
  intro l
  induction l with
  | nil => intro fs ci; simp [copyImages2]
  | cons img rest ih =>
    intro fs ci
    rw [copyImages2]
    simp only [if_pos rfl]
    rw [ih]
    simp
    omega

theorem copyLabels1_dry_fs (ol : FPath) (pfx : String) (target_id : Int) :
    ∀ (l : List FPath) (fs : FS) (cc : CC) (cl bw : Nat),
      (copyLabels1 true ol pfx target_id l fs cc cl bw).1 = fs := by
  intro l
  induction l with
  | nil => intro fs cc cl bw; rfl
  | cons lab rest ih =>
    intro fs cc cl bw
    rw [copyLabels1]
    by_cases h : fs.isFile lab
    · rw [if_pos h]
      simp only [if_pos rfl]
      exact ih _ _ _ _
    · rw [if_neg h]
      exact ih _ _ _ _

theorem copyLabels2_dry_fs (ol : FPath) (pfx : String) (target_id : Int) :
    ∀ (l : List FPath) (fs : FS) (cc : CC) (cl bw : Nat),
      (copyLabels2 true ol pfx target_id l fs cc cl bw).1 = fs := by
  intro l
  induction l with
  | nil => intro fs cc cl bw; rfl
  | cons lab rest ih =>
    intro fs cc cl bw
    rw [copyLabels2]
    simp only [if_pos rfl]
    exact ih _ _ _ _

theorem process_split1_dry_fs (fs : FS) (dataset_dir : FPath) (split : String)
    (out_images out_labels : FPath) (pfx : String) (target_id : Int) (cc : CC) :
    (process_split1 fs dataset_dir split out_images out_labels pfx target_id cc true).fs =
      fs := by
  simp only [process_split1]
  rw [show (copyImages1 true out_images pfx
      (if fs.pathExists (dataset_dir ++ [split, "images"]) then
        fs.entriesUnder (dataset_dir ++ [split, "images"]) else []) fs 0).1 = fs
    from copyImages1_dry_fs _ _ _ _ _]
  exact copyLabels1_dry_fs _ _ _ _ _ _ _ _

theorem process_split2_dry_fs (fs : FS) (dataset_dir : FPath) (split_key : String)
    (out_images out_labels : FPath) (pfx : String) (target_id : Int) (cc : CC) :
    (process_split2 fs dataset_dir split_key out_images out_labels pfx target_id cc true).fs =
      fs := by
  rw [process_split2]
  rcases h : find_split_dirs fs dataset_dir split_key with ⟨idir, ldir⟩
  cases idir with
  | none => rfl
  | some images_dir =>
    cases ldir with
    | none =>
      simp only [copyImages2_dry]
    | some labels_dir =>
      simp only [copyImages2_dry]
      exact copyLabels2_dry_fs _ _ _ _ _ _ _ _

theorem splitLoop1_dry_fs (root out : FPath) (ds_name pfx : String) (target_id : Int) :
    ∀ (splits : List String) (fs : FS) (cc : CC) (acc : List (String × SplitStats)) (tot : Nat),
      (splitLoop1 root out ds_name pfx target_id true splits fs cc acc tot).1 = fs := by
  intro splits
  induction splits with
  | nil => intro fs cc acc tot; rfl
  | cons s rest ih =>
    intro fs cc acc tot
    rw [splitLoop1]
    rw [show (process_split1 fs (root ++ [ds_name]) s (out ++ [s, "images"])
        (out ++ [s, "labels"]) pfx target_id cc true).fs = fs from
      process_split1_dry_fs _ _ _ _ _ _ _ _]
    exact ih _ _ _ _

theorem splitLoop2_dry_fs (out ds_path : FPath) (pfx : String) (target_id : Int) :
    ∀ (splits : List String) (fs : FS) (cc : CC) (acc : List (String × SplitStats)) (tot : Nat),
      (splitLoop2 out ds_path pfx target_id true splits fs cc acc tot).1 = fs := by
  intro splits
  induction splits with
  | nil => intro fs cc acc tot; rfl
  | cons s rest ih =>
    intro fs cc acc tot
    rw [splitLoop2]
    rw [show (process_split2 fs ds_path s (out ++ [s, "images"])
        (out ++ [s, "labels"]) pfx target_id cc true).fs = fs from
      process_split2_dry_fs _ _ _ _ _ _ _ _]
    exact ih _ _ _ _

theorem mergeLoop1_dry_fs (root out : FPath) :
    ∀ (ds : List (String × Int)) (fs : FS) (stats : Stats) (cc : CC) (tot : Nat),
      (mergeLoop1 root out true ds fs stats cc tot).1 = fs := by
  intro ds
  induction ds with
  | nil => intro fs stats cc tot; rfl
  | cons e rest ih =>
    intro fs stats cc tot
    rcases e with ⟨ds_name, target_id⟩
    rw [mergeLoop1]
    by_cases h : fs.pathExists (root ++ [ds_name])
    · rw [if_pos h]
      simp only [splitLoop1_dry_fs]
      exact ih _ _ _ _
    · rw [if_neg h]
      exact ih _ _ _ _

theorem mergeLoop2_dry_fs (out : FPath) :
    ∀ (ds : List FPath) (fs : FS) (stats : Stats) (cc : CC) (tot : Nat),
      (mergeLoop2 out true ds fs stats cc tot).1 = fs := by
  intro ds
  induction ds with
  | nil => intro fs stats cc tot; rfl
  | cons d rest ih =>
    intro fs stats cc tot
    rw [mergeLoop2]
    simp only [splitLoop2_dry_fs]
    exact ih _ _ _ _

theorem addDir_files (fs : FS) (p : FPath) : (fs.addDir p).files = fs.files := by
  rw [FS.addDir]
  split_ifs <;> rfl

theorem mkdirP_files (fs : FS) (p : FPath) : (fs.mkdirP p).files = fs.files := by
  rw [FS.mkdirP]
  generalize prefixesOf p = l
  induction l generalizing fs with
  | nil => rfl
  | cons q rest ih => rw [List.foldl_cons, ih, addDir_files]

theorem mkOutDirs_files (fs : FS) (out : FPath) : (mkOutDirs fs out).files = fs.files := by
  simp [mkOutDirs, mkdirP_files]

/-- C6, counterexample: a preview run of `merge` still creates the output
split directories, so some directory creation does occur under `dry_run`. -/
theorem c6_counterexample :
    (merge1 ⟨[], []⟩ ["r"] ["o"] true).fs.dirs ≠ ([] : List FPath) := by decide

/-- C6 as amended: under `dry_run` the engine writes and copies no file at
all — `process_split` leaves the filesystem exactly unchanged and `merge`
only creates the (empty) output split-directory skeleton, in both scripts. -/
theorem c6_dry_run_mutation (fs : FS) (root out dataset_dir : FPath)
    (split : String) (out_images out_labels : FPath) (pfx : String) (target_id : Int)
    (cc : CC) (datasets : List FPath) :
    (process_split1 fs dataset_dir split out_images out_labels pfx target_id cc true).fs =
        fs ∧
    (process_split2 fs dataset_dir split out_images out_labels pfx target_id cc true).fs =
        fs ∧
    (merge1 fs root out true).fs = mkOutDirs fs out ∧
    (merge2 fs root out datasets true).fs = mkOutDirs fs out ∧
    (merge1 fs root out true).fs.files = fs.files ∧
    (merge2 fs root out datasets true).fs.files = fs.files := by
  have h1 : (merge1 fs root out true).fs = mkOutDirs fs out := by
    simp only [merge1, if_pos rfl]
    exact mergeLoop1_dry_fs _ _ _ _ _ _ _
  have h2 : (merge2 fs root out datasets true).fs = mkOutDirs fs out := by
    simp only [merge2, if_pos rfl]
    exact mergeLoop2_dry_fs _ _ _ _ _ _
  refine ⟨process_split1_dry_fs _ _ _ _ _ _ _ _, process_split2_dry_fs _ _ _ _ _ _ _ _,
    h1, h2, ?_, ?_⟩
  · rw [h1, mkOutDirs_files]
  · rw [h2, mkOutDirs_files]

/-! ### Consistency of the three aggregates -/

/-- Total boxes recorded in one dataset's per-split stats list. -/
def splitBoxesSum (l : List (String × SplitStats)) : Nat :=
  (l.map (fun e => e.2.boxes)).sum

/-- Total boxes recorded in the whole stats mapping. -/
def statsBoxes (st : Stats) : Nat := (st.map (fun e => splitBoxesSum e.2)).sum

theorem sumValues_nil : sumValues [] = 0 := rfl

theorem statsBoxes_nil : statsBoxes [] = 0 := rfl

theorem splitBoxesSum_nil : splitBoxesSum [] = 0 := rfl

theorem statsBoxes_append (st : Stats) (nm : String) (sl : List (String × SplitStats)) :
    statsBoxes (st ++ [(nm, sl)]) = statsBoxes st + splitBoxesSum sl := by
  simp [statsBoxes]

theorem splitBoxesSum_append (l : List (String × SplitStats)) (nm : String)
    (a b c : Nat) :
    splitBoxesSum (l ++ [(nm, ⟨a, b, c⟩)]) = splitBoxesSum l + c := by
  simp [splitBoxesSum]

theorem sumValues_bump : ∀ (cc : CC) (k : Int), sumValues (bump cc k) = sumValues cc + 1 := by
  intro cc k
  induction cc with
  | nil => rfl
  | cons e rest ih =>
    rcases e with ⟨k0, v⟩
    rw [bump]
    split_ifs with h
    · simp only [sumValues, List.map_cons, List.sum_cons]
      omega
    · simp only [sumValues, List.map_cons, List.sum_cons] at *
      omega

/-- A step function that keeps the class-count sum and the box counter in
lock step. -/
def TallyStep {β : Type} (f : RState → β → RState) : Prop :=
  ∀ (st : RState) (b : β),
    sumValues (f st b).2.1 + st.2.2 = sumValues st.2.1 + (f st b).2.2

theorem tallyStep_append_line1 (target_id : Int) : TallyStep (append_line1 target_id) := by
  intro st toks
  simp only [append_line1, sumValues_bump]
  omega

theorem tallyStep_append_line2 (target_id : Int) : TallyStep (append_line2 target_id) := by
  intro st toks
  simp only [append_line2, sumValues_bump]
  omega

theorem foldl_tally {β : Type} (f : RState → β → RState) (h : TallyStep f) :
    ∀ (L : List β) (st : RState),
      sumValues (L.foldl f st).2.1 + st.2.2 = sumValues st.2.1 + (L.foldl f st).2.2 := by
  intro L
  induction L with
  | nil => intro st; rfl
  | cons b L ih =>
    intro st
    simp only [List.foldl_cons]
    have h1 := h st b
    have h2 := ih (f st b)
    omega

theorem tallyStep_processLine (ap : RState → List String → RState) (h : TallyStep ap)
    (target_id : Int) : TallyStep (processLine ap target_id) := by
  intro st line
  simp only [processLine]
  split_ifs
  · rfl
  · exact foldl_tally ap h _ st

theorem remapFile1_tally (target_id : Int) (cc : CC) (bw : Nat) (content : String) :
    sumValues (remapFile1 target_id cc bw content).2.1 + bw =
      sumValues cc + (remapFile1 target_id cc bw content).2.2 := by
  have := foldl_tally _ (tallyStep_processLine _ (tallyStep_append_line1 target_id) target_id)
    (splitLines content) ([], cc, bw)
  simpa [remapFile1] using this

theorem remapFile2_tally (target_id : Int) (cc : CC) (bw : Nat) (content : String) :
    sumValues (remapFile2 target_id cc bw content).2.1 + bw =
      sumValues cc + (remapFile2 target_id cc bw content).2.2 := by
  have := foldl_tally _ (tallyStep_processLine _ (tallyStep_append_line2 target_id) target_id)
    (splitLines content) ([], cc, bw)
  simpa [remapFile2] using this

theorem copyLabels1_tally (dry : Bool) (ol : FPath) (pfx : String) (target_id : Int) :
    ∀ (l : List FPath) (fs : FS) (cc : CC) (cl bw : Nat),
      sumValues (copyLabels1 dry ol pfx target_id l fs cc cl bw).2.1 + bw =
        sumValues cc + (copyLabels1 dry ol pfx target_id l fs cc cl bw).2.2.2 := by
  intro l fs cc cl bw
  induction l, fs, cc, cl, bw using copyLabels1.induct dry ol pfx target_id with
  | case1 fs cc cl bw => rfl
  | case2 lab rest fs cc cl bw h dest fs1 st fs2 ih =>
    rw [copyLabels1, if_pos h]
    have h1 := remapFile1_tally target_id cc bw (fs1.readFile lab)
    simp only [fs2, st, fs1, dest] at ih h1 ⊢
    omega
  | case3 lab rest fs cc cl bw h ih =>
    rw [copyLabels1, if_neg h]
    exact ih

theorem copyLabels2_tally (dry : Bool) (ol : FPath) (pfx : String) (target_id : Int) :
    ∀ (l : List FPath) (fs : FS) (cc : CC) (cl bw : Nat),
      sumValues (copyLabels2 dry ol pfx target_id l fs cc cl bw).2.1 + bw =
        sumValues cc + (copyLabels2 dry ol pfx target_id l fs cc cl bw).2.2.2 := by
  intro l fs cc cl bw
  induction l, fs, cc, cl, bw using copyLabels2.induct dry ol pfx target_id with
  | case1 fs cc cl bw => rfl
  | case2 lab rest fs cc cl bw dest fs1 st fs2 ih =>
    rw [copyLabels2]
    have h1 := remapFile2_tally target_id cc bw (fs1.readFile lab)
    simp only [fs2, st, fs1, dest] at ih h1 ⊢
    omega

theorem process_split1_tally (fs : FS) (dataset_dir : FPath) (split : String)
    (out_images out_labels : FPath) (pfx : String) (target_id : Int) (cc : CC) (dry : Bool) :
    sumValues (process_split1 fs dataset_dir split out_images out_labels pfx target_id cc
        dry).cc =
      sumValues cc +
        (process_split1 fs dataset_dir split out_images out_labels pfx target_id cc
          dry).boxes := by
  simp only [process_split1]
  have := copyLabels1_tally dry out_labels pfx target_id
    ((if fs.pathExists (dataset_dir ++ [split, "labels"]) then
        (fs.entriesUnder (dataset_dir ++ [split, "labels"])).filter
          (fun p => endsWithStr ".txt" (lastComp p))
      else []))
    (copyImages1 dry out_images pfx
      (if fs.pathExists (dataset_dir ++ [split, "images"]) then
        fs.entriesUnder (dataset_dir ++ [split, "images"]) else []) fs 0).1
    cc 0 0
  omega

theorem process_split2_tally (fs : FS) (dataset_dir : FPath) (split_key : String)
    (out_images out_labels : FPath) (pfx : String) (target_id : Int) (cc : CC) (dry : Bool) :
    sumValues (process_split2 fs dataset_dir split_key out_images out_labels pfx target_id cc
        dry).cc =
      sumValues cc +
        (process_split2 fs dataset_dir split_key out_images out_labels pfx target_id cc
          dry).boxes := by
  rw [process_split2]
  rcases h : find_split_dirs fs dataset_dir split_key with ⟨idir, ldir⟩
  cases idir with
  | none => simp
  | some images_dir =>
    cases ldir with
    | none => simp
    | some labels_dir =>
      simp only
      have := copyLabels2_tally dry out_labels pfx target_id
        (iter_label_files (copyImages2 dry out_images pfx (iter_images fs images_dir) fs 0).1
          (some labels_dir))
        (copyImages2 dry out_images pfx (iter_images fs images_dir) fs 0).1 cc 0 0
      omega

theorem splitLoop1_tally (root out : FPath) (ds_name pfx : String) (target_id : Int)
    (dry : Bool) :
    ∀ (splits : List String) (fs : FS) (cc : CC) (acc : List (String × SplitStats)) (tot : Nat),
      sumValues (splitLoop1 root out ds_name pfx target_id dry splits fs cc acc tot).2.1 + tot =
          sumValues cc +
            (splitLoop1 root out ds_name pfx target_id dry splits fs cc acc tot).2.2.2 ∧
        splitBoxesSum
              (splitLoop1 root out ds_name pfx target_id dry splits fs cc acc tot).2.2.1 +
            tot =
          splitBoxesSum acc +
            (splitLoop1 root out ds_name pfx target_id dry splits fs cc acc tot).2.2.2 := by
  intro splits fs cc acc tot
  induction splits, fs, cc, acc, tot using splitLoop1.induct root out ds_name pfx target_id dry
    with
  | case1 fs cc acc tot => exact ⟨rfl, rfl⟩
  | case2 s rest fs cc acc tot r ih =>
    rw [splitLoop1]
    have hp := process_split1_tally fs (root ++ [ds_name]) s (out ++ [s, "images"])
      (out ++ [s, "labels"]) pfx target_id cc dry
    obtain ⟨ih1, ih2⟩ := ih
    rw [splitBoxesSum_append] at ih2
    simp only [r] at ih1 ih2 ⊢
    exact ⟨by omega, by omega⟩

theorem splitLoop2_tally (out ds_path : FPath) (pfx : String) (target_id : Int) (dry : Bool) :
    ∀ (splits : List String) (fs : FS) (cc : CC) (acc : List (String × SplitStats)) (tot : Nat),
      sumValues (splitLoop2 out ds_path pfx target_id dry splits fs cc acc tot).2.1 + tot =
          sumValues cc + (splitLoop2 out ds_path pfx target_id dry splits fs cc acc tot).2.2.2 ∧
        splitBoxesSum (splitLoop2 out ds_path pfx target_id dry splits fs cc acc tot).2.2.1 +
            tot =
          splitBoxesSum acc +
            (splitLoop2 out ds_path pfx target_id dry splits fs cc acc tot).2.2.2 := by
  intro splits fs cc acc tot
  induction splits, fs, cc, acc, tot using splitLoop2.induct out ds_path pfx target_id dry with
  | case1 fs cc acc tot => exact ⟨rfl, rfl⟩
  | case2 s rest fs cc acc tot r ih =>
    rw [splitLoop2]
    have hp := process_split2_tally fs ds_path s (out ++ [s, "images"])
      (out ++ [s, "labels"]) pfx target_id cc dry
    obtain ⟨ih1, ih2⟩ := ih
    rw [splitBoxesSum_append] at ih2
    simp only [r] at ih1 ih2 ⊢
    exact ⟨by omega, by omega⟩

theorem setStats_append : ∀ (stats : Stats) (nm : String) (v : List (String × SplitStats)),
    (∀ s ∈ stats, s.1 ≠ nm) → setStats stats nm v = stats ++ [(nm, v)] := by
  intro stats nm v h
  induction stats with
  | nil => rfl
  | cons e rest ih =>
    rcases e with ⟨nm0, v0⟩
    rw [setStats, if_neg (h (nm0, v0) (by simp)), ih (fun s hs => h s (by simp [hs]))]
    rfl

theorem mergeLoop1_cc_tally (root out : FPath) (dry : Bool) :
    ∀ (ds : List (String × Int)) (fs : FS) (stats : Stats) (cc : CC) (tot : Nat),
      sumValues (mergeLoop1 root out dry ds fs stats cc tot).2.2.1 + tot =
        sumValues cc + (mergeLoop1 root out dry ds fs stats cc tot).2.2.2 := by
  intro ds fs stats cc tot
  induction ds, fs, stats, cc, tot using mergeLoop1.induct root out dry with
  | case1 fs stats cc tot => rfl
  | case2 ds_name target_id rest fs stats cc tot h r ih =>
    rw [mergeLoop1, if_pos h]
    have hs := (splitLoop1_tally root out ds_name (sanitize1 ds_name) target_id dry
      ["train", "valid", "test"] fs cc [] 0).1
    simp only [r] at ih hs ⊢
    omega
  | case3 ds_name target_id rest fs stats cc tot h ih =>
    rw [mergeLoop1, if_neg h]
    exact ih

theorem mergeLoop2_cc_tally (out : FPath) (dry : Bool) :
    ∀ (ds : List FPath) (fs : FS) (stats : Stats) (cc : CC) (tot : Nat),
      sumValues (mergeLoop2 out dry ds fs stats cc tot).2.2.1 + tot =
        sumValues cc + (mergeLoop2 out dry ds fs stats cc tot).2.2.2 := by
  intro ds fs stats cc tot
  induction ds, fs, stats, cc, tot using mergeLoop2.induct out dry with
  | case1 fs stats cc tot => rfl
  | case2 d rest fs stats cc tot r ih =>
    rw [mergeLoop2]
    have hs := (splitLoop2_tally out d ( sanitize_prefix (lastComp d)) FORCED_TARGET_ID dry
      ["train", "valid", "test"] fs cc [] 0).1
    simp only [r] at ih hs ⊢
    omega

theorem mergeLoop1_stats_tally (root out : FPath) (dry : Bool) :
    ∀ (ds : List (String × Int)) (fs : FS) (stats : Stats) (cc : CC) (tot : Nat),
      (ds.map (fun e => e.1)).Nodup →
      (∀ e ∈ ds, ∀ s ∈ stats, s.1 ≠ e.1) →
      statsBoxes (mergeLoop1 root out dry ds fs stats cc tot).2.1 + tot =
        statsBoxes stats + (mergeLoop1 root out dry ds fs stats cc tot).2.2.2 := by
  intro ds fs stats cc tot
  induction ds, fs, stats, cc, tot using mergeLoop1.induct root out dry with
  | case1 fs stats cc tot => intro _ _; rfl
  | case2 ds_name target_id rest fs stats cc tot h r ih =>
    intro hnd hfresh
    rw [mergeLoop1, if_pos h]
    have hnd2 : (rest.map (fun e => e.1)).Nodup ∧
        ds_name ∉ rest.map (fun e => e.1) := by
      simp only [List.map_cons, List.nodup_cons] at hnd
      exact ⟨hnd.2, hnd.1⟩
    have hset : setStats stats ds_name r.2.2.1 = stats ++ [(ds_name, r.2.2.1)] :=
      setStats_append _ _ _ (fun s hs => hfresh (ds_name, target_id) (by simp) s hs)
    have hfresh2 : ∀ e ∈ rest, ∀ s ∈ setStats stats ds_name r.2.2.1, s.1 ≠ e.1 := by
      intro e he s hsmem
      rw [hset] at hsmem
      rcases List.mem_append.mp hsmem with hsmem | hsmem
      · exact hfresh e (by simp [he]) s hsmem
      · have hs2 : s = (ds_name, r.2.2.1) := by simpa using hsmem
        subst hs2
        intro hcon
        have hcon2 : ds_name = e.1 := hcon
        exact hnd2.2 (by rw [hcon2]; exact List.mem_map_of_mem _ he)
    have hih := ih hnd2.1 hfresh2
    have hs := (splitLoop1_tally root out ds_name (sanitize1 ds_name) target_id dry
      ["train", "valid", "test"] fs cc [] 0).2
    rw [splitBoxesSum_nil] at hs
    simp only [r] at hset hih hs ⊢
    rw [hset] at hih ⊢
    rw [statsBoxes_append] at hih
    omega
  | case3 ds_name target_id rest fs stats cc tot h ih =>
    intro hnd hfresh
    rw [mergeLoop1, if_neg h]
    refine ih ?_ (fun e he s hs => hfresh e (by simp [he]) s hs)
    simp only [List.map_cons, List.nodup_cons] at hnd
    exact hnd.2

theorem mergeLoop2_stats_tally (out : FPath) (dry : Bool) :
    ∀ (ds : List FPath) (fs : FS) (stats : Stats) (cc : CC) (tot : Nat),
      (ds.map lastComp).Nodup →
      (∀ d ∈ ds, ∀ s ∈ stats, s.1 ≠ lastComp d) →
      statsBoxes (mergeLoop2 out dry ds fs stats cc tot).2.1 + tot =
        statsBoxes stats + (mergeLoop2 out dry ds fs stats cc tot).2.2.2 := by
  intro ds fs stats cc tot
  induction ds, fs, stats, cc, tot using mergeLoop2.induct out dry with
  | case1 fs stats cc tot => intro _ _; rfl
  | case2 d rest fs stats cc tot r ih =>
    intro hnd hfresh
    rw [mergeLoop2]
    have hnd2 : (rest.map lastComp).Nodup ∧ lastComp d ∉ rest.map lastComp := by
      simp only [List.map_cons, List.nodup_cons] at hnd
      exact ⟨hnd.2, hnd.1⟩
    have hset : setStats stats (lastComp d) r.2.2.1 =
        stats ++ [(lastComp d, r.2.2.1)] :=
      setStats_append _ _ _ (fun s hs => hfresh d (by simp) s hs)
    have hfresh2 : ∀ e ∈ rest, ∀ s ∈ setStats stats (lastComp d) r.2.2.1,
        s.1 ≠ lastComp e := by
      intro e he s hsmem
      rw [hset] at hsmem
      rcases List.mem_append.mp hsmem with hsmem | hsmem
      · exact hfresh e (by simp [he]) s hsmem
      · have hs2 : s = (lastComp d, r.2.2.1) := by simpa using hsmem
        subst hs2
        intro hcon
        have hcon2 : lastComp d = lastComp e := hcon
        exact hnd2.2 (by rw [hcon2]; exact List.mem_map_of_mem _ he)
    have hih := ih hnd2.1 hfresh2
    have hs := (splitLoop2_tally out d ( sanitize_prefix (lastComp d)) FORCED_TARGET_ID dry
      ["train", "valid", "test"] fs cc [] 0).2
    rw [splitBoxesSum_nil] at hs
    simp only [r] at hset hih hs ⊢
    rw [hset] at hih ⊢
    rw [statsBoxes_append] at hih
    omega

/-- A complete dataset folder holding one single-box label file, for the C10
counterexample. -/
def fsDup : FS :=
  ⟨[["r"], ["r", "ds.yolov11"], ["r", "ds.yolov11", "train"],
    ["r", "ds.yolov11", "train", "images"], ["r", "ds.yolov11", "train", "labels"],
    ["r", "ds.yolov11", "valid"], ["r", "ds.yolov11", "valid", "images"],
    ["r", "ds.yolov11", "test"], ["r", "ds.yolov11", "test", "images"]],
   [(["r", "ds.yolov11", "train", "labels", "a.txt"], "0 0.1 0.2 0.3 0.4")]⟩

/-- C10, counterexample: overlapping explicit glob patterns make
`resolve_datasets` return the same dataset directory twice; `merge` of
`merge_dataset_2` then processes it twice, so `total_boxes` and the
class-count sum reach 2 while the stats mapping — whose dict assignment
keeps only the last pass — sums to 1. -/
theorem c10_counterexample :
    resolve_datasets fsDup ["r"] (some ["ds.yolov11", "ds*"]) =
        [["r", "ds.yolov11"], ["r", "ds.yolov11"]] ∧
      (merge2 fsDup ["r"] ["o"] [["r", "ds.yolov11"], ["r", "ds.yolov11"]]
          true).total_boxes ≠
        statsBoxes (merge2 fsDup ["r"] ["o"] [["r", "ds.yolov11"], ["r", "ds.yolov11"]]
          true).stats ∧
      (merge2 fsDup ["r"] ["o"] [["r", "ds.yolov11"], ["r", "ds.yolov11"]]
          true).total_boxes =
        sumValues (merge2 fsDup ["r"] ["o"] [["r", "ds.yolov11"], ["r", "ds.yolov11"]]
          true).class_counts := by
  refine ⟨by decide, by decide, by decide⟩

/-- C10 as amended: in every run of either script's `merge`, the returned
total box count equals the sum of the values of the class-count map; it also
equals the sum of the per-dataset/per-split `boxes` entries of the stats map
in `merge_dataset_1` always (its dataset table has pairwise-distinct names)
and in `merge_dataset_2` whenever the dataset directory names are pairwise
distinct — a repeated name (reachable through overlapping `--datasets`
patterns) makes the stats dict keep only the last pass while the total keeps
both. -/
theorem c10_totals_consistent (fs : FS) (root out : FPath) (datasets : List FPath)
    (dry_run : Bool) (hnames : (datasets.map lastComp).Nodup) :
    ((merge1 fs root out dry_run).total_boxes = statsBoxes (merge1 fs root out dry_run).stats ∧
      (merge1 fs root out dry_run).total_boxes =
        sumValues (merge1 fs root out dry_run).class_counts) ∧
    ((merge2 fs root out datasets dry_run).total_boxes =
        statsBoxes (merge2 fs root out datasets dry_run).stats ∧
      (merge2 fs root out datasets dry_run).total_boxes =
        sumValues (merge2 fs root out datasets dry_run).class_counts) := by
  have h1a := mergeLoop1_cc_tally root out dry_run DATASETS (mkOutDirs fs out) [] [] 0
  have h1b := mergeLoop1_stats_tally root out dry_run DATASETS (mkOutDirs fs out) [] [] 0
    (by decide) (by simp)
  have h2a := mergeLoop2_cc_tally out dry_run datasets (mkOutDirs fs out) [] [] 0
  have h2b := mergeLoop2_stats_tally out dry_run datasets (mkOutDirs fs out) [] [] 0 hnames
    (by simp)
  rw [sumValues_nil] at h1a h2a
  rw [statsBoxes_nil] at h1b h2b
  simp only [merge1, merge2]
  exact ⟨⟨by omega, by omega⟩, ⟨by omega, by omega⟩⟩

/-- Witness for C10 at a configuration with pairwise-distinct dataset
names. -/
theorem c10_totals_consistent_witness :
    ((merge1 ⟨[], []⟩ ["r"] ["o"] true).total_boxes =
        statsBoxes (merge1 ⟨[], []⟩ ["r"] ["o"] true).stats ∧
      (merge1 ⟨[], []⟩ ["r"] ["o"] true).total_boxes =
        sumValues (merge1 ⟨[], []⟩ ["r"] ["o"] true).class_counts) ∧
    ((merge2 ⟨[], []⟩ ["r"] ["o"] [["d"]] true).total_boxes =
        statsBoxes (merge2 ⟨[], []⟩ ["r"] ["o"] [["d"]] true).stats ∧
      (merge2 ⟨[], []⟩ ["r"] ["o"] [["d"]] true).total_boxes =
        sumValues (merge2 ⟨[], []⟩ ["r"] ["o"] [["d"]] true).class_counts) :=
  c10_totals_consistent ⟨[], []⟩ ["r"] ["o"] [["d"]] true (by decide)

/-! ### Preview/mutating equivalence: path and filesystem lemmas -/

theorem dirLe_refl : ∀ p : FPath, dirLe p p = true := by
  intro p
  induction p with
  | nil => rfl
  | cons a p ih => simp [dirLe, ih]

theorem dirLe_append (p q : FPath) : dirLe p (p ++ q) = true := by
  induction p with
  | nil => rfl
  | cons a p ih => simp [dirLe, ih]

theorem dirLe_trans : ∀ (a b c : FPath), dirLe a b = true → dirLe b c = true →
    dirLe a c = true := by
  intro a
  induction a with
  | nil => intro b c _ _; rfl
  | cons x a ih =>
    intro b c h1 h2
    cases b with
    | nil => simp [dirLe] at h1
    | cons y b =>
      cases c with
      | nil => simp [dirLe] at h2
      | cons z c =>
        simp only [dirLe, Bool.and_eq_true, beq_iff_eq] at h1 h2 ⊢
        obtain ⟨rfl, h1⟩ := h1
        obtain ⟨rfl, h2⟩ := h2
        exact ⟨rfl, ih _ _ h1 h2⟩

theorem dirLe_total_of_common : ∀ (a b c : FPath), dirLe a c = true → dirLe b c = true →
    dirLe a b = true ∨ dirLe b a = true := by
  intro a
  induction a with
  | nil => intro b c _ _; left; rfl
  | cons x a ih =>
    intro b c h1 h2
    cases b with
    | nil => right; rfl
    | cons y b =>
      cases c with
      | nil => simp [dirLe] at h1
      | cons z c =>
        simp only [dirLe, Bool.and_eq_true, beq_iff_eq] at h1 h2 ⊢
        obtain ⟨rfl, h1⟩ := h1
        obtain ⟨rfl, h2⟩ := h2
        rcases ih b c h1 h2 with h | h
        · exact Or.inl ⟨rfl, h⟩
        · exact Or.inr ⟨rfl, h⟩

theorem filter_of_implies {α : Type} (p q : α → Bool) (h : ∀ e, p e = true → q e = true) :
    ∀ l : List α, l.filter p = (l.filter q).filter p := by
  intro l
  induction l with
  | nil => rfl
  | cons x l ih =>
    by_cases hp : p x = true
    · simp [List.filter_cons, hp, h x hp, ih]
    · by_cases hq : q x = true
      · simp [List.filter_cons, hp, hq, ih]
      · simp [List.filter_cons, hp, hq, ih]

theorem find?_of_implies {α : Type} (p q : α → Bool) (h : ∀ e, p e = true → q e = true) :
    ∀ l : List α, l.find? p = (l.filter q).find? p := by
  intro l
  induction l with
  | nil => rfl
  | cons x l ih =>
    by_cases hp : p x = true
    · rw [List.find?_cons_of_pos _ hp, List.filter_cons_of_pos (h x hp),
        List.find?_cons_of_pos _ hp]
    · by_cases hq : q x = true
      · rw [List.find?_cons_of_neg _ hp, ih, List.filter_cons_of_pos hq,
          List.find?_cons_of_neg _ hp]
      · rw [List.find?_cons_of_neg _ hp, ih, List.filter_cons_of_neg hq]

/-- Two filesystems with the same directories that agree, entry for entry
and in order, on every file whose path is not below `out`. -/
def FS.Agree (out : FPath) (a b : FS) : Prop :=
  a.dirs = b.dirs ∧
    a.files.filter (fun e => !(dirLe out e.1)) = b.files.filter (fun e => !(dirLe out e.1))

theorem agree_refl (out : FPath) (a : FS) : FS.Agree out a a := ⟨rfl, rfl⟩

theorem agree_isFile {out : FPath} {a b : FS} (h : FS.Agree out a b) (p : FPath)
    (hp : dirLe out p = false) : a.isFile p = b.isFile p := by
  have key : ∀ fs : FS, fs.files.find? (fun e => e.1 == p) =
      (fs.files.filter (fun e => !(dirLe out e.1))).find? (fun e => e.1 == p) := by
    intro fs
    apply find?_of_implies
    intro e he
    have he2 : e.1 = p := by simpa using he
    rw [he2, hp]
    rfl
  rw [FS.isFile, FS.isFile, key a, key b, h.2]

theorem agree_readFile {out : FPath} {a b : FS} (h : FS.Agree out a b) (p : FPath)
    (hp : dirLe out p = false) : a.readFile p = b.readFile p := by
  have key : ∀ fs : FS, fs.files.find? (fun e => e.1 == p) =
      (fs.files.filter (fun e => !(dirLe out e.1))).find? (fun e => e.1 == p) := by
    intro fs
    apply find?_of_implies
    intro e he
    have he2 : e.1 = p := by simpa using he
    rw [he2, hp]
    rfl
  rw [FS.readFile, FS.readFile, key a, key b, h.2]

theorem agree_isDir {out : FPath} {a b : FS} (h : FS.Agree out a b) (p : FPath) :
    a.isDir p = b.isDir p := by
  rw [FS.isDir, FS.isDir, h.1]

theorem agree_pathExists {out : FPath} {a b : FS} (h : FS.Agree out a b) (p : FPath)
    (hp : dirLe out p = false) : a.pathExists p = b.pathExists p := by
  rw [FS.pathExists, FS.pathExists, agree_isFile h p hp, agree_isDir h p]

theorem under_incomparable_outside {out d p : FPath} (hd1 : dirLe out d = false)
    (hd2 : dirLe d out = false) (hp : dirLe d p = true) : dirLe out p = false := by
  by_contra hcon
  have hop : dirLe out p = true := by
    cases hx : dirLe out p
    · exact absurd hx hcon
    · rfl
  rcases dirLe_total_of_common out d p hop hp with hc | hc
  · rw [hd1] at hc; exact Bool.false_ne_true hc
  · rw [hd2] at hc; exact Bool.false_ne_true hc

theorem agree_filesUnder {out : FPath} {a b : FS} (h : FS.Agree out a b) (d : FPath)
    (hd1 : dirLe out d = false) (hd2 : dirLe d out = false) :
    a.filesUnder d = b.filesUnder d := by
  have himp : ∀ e : FPath × String,
      (dirLe d e.1 && !(e.1 == d)) = true → (!(dirLe out e.1)) = true := by
    intro e he
    simp only [Bool.and_eq_true] at he
    rw [under_incomparable_outside hd1 hd2 he.1]
    rfl
  rw [FS.filesUnder, FS.filesUnder, filter_of_implies _ _ himp a.files,
    filter_of_implies _ _ himp b.files, h.2]

theorem agree_dirsUnder {out : FPath} {a b : FS} (h : FS.Agree out a b) (d : FPath) :
    a.dirsUnder d = b.dirsUnder d := by
  rw [FS.dirsUnder, FS.dirsUnder, h.1]

theorem agree_entriesUnder {out : FPath} {a b : FS} (h : FS.Agree out a b) (d : FPath)
    (hd1 : dirLe out d = false) (hd2 : dirLe d out = false) :
    a.entriesUnder d = b.entriesUnder d := by
  rw [FS.entriesUnder, FS.entriesUnder, agree_filesUnder h d hd1 hd2, agree_dirsUnder h d]

theorem agree_writeFile {out : FPath} {a b : FS} (h : FS.Agree out a b) (dest : FPath)
    (hdest : dirLe out dest = true) (c : String) : FS.Agree out (a.writeFile dest c) b := by
  refine ⟨h.1, ?_⟩
  rw [FS.writeFile]
  simp only [List.filter_append]
  have h1 : List.filter (fun e => !(dirLe out e.1)) [(dest, c)] = [] := by
    simp [List.filter, hdest]
  rw [h1, List.append_nil]
  rw [← filter_of_implies (fun e => !(dirLe out e.1)) (fun e => !(e.1 == dest))
    (by
      intro e he
      simp only [Bool.not_eq_eq_eq_not, Bool.not_true] at he
      simp only [Bool.not_eq_eq_eq_not, Bool.not_true, beq_eq_false_iff_ne, ne_eq]
      intro hcon
      rw [hcon, hdest] at he
      simp at he) a.files]
  exact h.2

theorem isDir_mem (fs : FS) (p : FPath) : fs.isDir p = true ↔ p ∈ fs.dirs := by
  simp [FS.isDir, List.contains_iff_exists_mem_beq]

theorem isDir_addDir_of (fs : FS) (p q : FPath) (h : fs.isDir q = true) :
    (fs.addDir p).isDir q = true := by
  rw [FS.addDir]
  split_ifs
  · exact h
  · rw [isDir_mem] at h ⊢
    simp [h]

theorem isDir_addDir_self (fs : FS) (p : FPath) : (fs.addDir p).isDir p = true := by
  rw [FS.addDir]
  split_ifs with h
  · exact h
  · rw [isDir_mem]
    simp

theorem isDir_foldl_addDir_of : ∀ (L : List FPath) (fs : FS) (q : FPath),
    fs.isDir q = true → (L.foldl FS.addDir fs).isDir q = true := by
  intro L
  induction L with
  | nil => intro fs q h; exact h
  | cons x L ih =>
    intro fs q h
    exact ih _ _ (isDir_addDir_of _ _ _ h)

theorem isDir_foldl_addDir_mem : ∀ (L : List FPath) (fs : FS) (q : FPath), q ∈ L →
    (L.foldl FS.addDir fs).isDir q = true := by
  intro L
  induction L with
  | nil => intro fs q h; simp at h
  | cons x L ih =>
    intro fs q h
    rcases List.mem_cons.mp h with rfl | h
    · rw [List.foldl_cons]
      exact isDir_foldl_addDir_of _ _ _ (isDir_addDir_self _ _)
    · rw [List.foldl_cons]
      exact ih _ _ h

theorem isDir_mkdirP_of (fs : FS) (p q : FPath) (h : fs.isDir q = true) :
    (fs.mkdirP p).isDir q = true :=
  isDir_foldl_addDir_of _ _ _ h

theorem isDir_mkdirP_prefixes (fs : FS) (p : FPath) :
    ∀ q ∈ prefixesOf p, (fs.mkdirP p).isDir q = true := by
  intro q hq
  exact isDir_foldl_addDir_mem _ _ _ hq

theorem mkdirP_noop (fs : FS) (p : FPath) (h : ∀ q ∈ prefixesOf p, fs.isDir q = true) :
    fs.mkdirP p = fs := by
  rw [FS.mkdirP]
  have : ∀ (L : List FPath) (fs1 : FS), (∀ q ∈ L, fs1.isDir q = true) →
      L.foldl FS.addDir fs1 = fs1 := by
    intro L
    induction L with
    | nil => intro fs1 _; rfl
    | cons x L ih =>
      intro fs1 hL
      rw [List.foldl_cons, FS.addDir, if_pos (hL x (by simp))]
      exact ih _ (fun q hq => hL q (by simp [hq]))
  exact this _ _ h

theorem agree_mkdirP {out : FPath} {a b : FS} (h : FS.Agree out a b) (p : FPath)
    (hpre : ∀ q ∈ prefixesOf p, b.isDir q = true) :
    a.mkdirP p = a := by
  apply mkdirP_noop
  intro q hq
  rw [agree_isDir h q]
  exact hpre q hq

theorem mkOutDirs_prefixes (fs : FS) (out : FPath) :
    ∀ s ∈ (["train", "valid", "test"] : List String),
      (∀ q ∈ prefixesOf (out ++ [s, "images"]), (mkOutDirs fs out).isDir q = true) ∧
      (∀ q ∈ prefixesOf (out ++ [s, "labels"]), (mkOutDirs fs out).isDir q = true) := by
  intro s hs
  simp only [mkOutDirs, List.foldl_cons, List.foldl_nil]
  rcases (by simpa using hs : s = "train" ∨ s = "valid" ∨ s = "test") with rfl | rfl | rfl
  · constructor
    · intro q hq
      exact isDir_mkdirP_of _ _ _ (isDir_mkdirP_of _ _ _ (isDir_mkdirP_of _ _ _
        (isDir_mkdirP_of _ _ _ (isDir_mkdirP_of _ _ _
          (isDir_mkdirP_prefixes _ _ q hq)))))
    · intro q hq
      exact isDir_mkdirP_of _ _ _ (isDir_mkdirP_of _ _ _ (isDir_mkdirP_of _ _ _
        (isDir_mkdirP_of _ _ _ (isDir_mkdirP_prefixes _ _ q hq))))
  · constructor
    · intro q hq
      exact isDir_mkdirP_of _ _ _ (isDir_mkdirP_of _ _ _ (isDir_mkdirP_of _ _ _
        (isDir_mkdirP_prefixes _ _ q hq)))
    · intro q hq
      exact isDir_mkdirP_of _ _ _ (isDir_mkdirP_of _ _ _
        (isDir_mkdirP_prefixes _ _ q hq))
  · constructor
    · intro q hq
      exact isDir_mkdirP_of _ _ _ (isDir_mkdirP_prefixes _ _ q hq)
    · intro q hq
      exact isDir_mkdirP_prefixes _ _ q hq

theorem incomparable_under {out d p : FPath} (hd1 : dirLe out d = false)
    (hd2 : dirLe d out = false) (hp : dirLe d p = true) :
    dirLe out p = false ∧ dirLe p out = false := by
  refine ⟨under_incomparable_outside hd1 hd2 hp, ?_⟩
  cases hx : dirLe p out
  · rfl
  · rw [dirLe_trans d p out hp hx] at hd2
    exact absurd hd2 (by simp)

theorem mem_filesUnder_dirLe {fs : FS} {d p : FPath} (h : p ∈ fs.filesUnder d) :
    dirLe d p = true := by
  rw [FS.filesUnder] at h
  obtain ⟨e, he, rfl⟩ := List.mem_map.mp h
  have := (List.mem_filter.mp he).2
  simp only [Bool.and_eq_true] at this
  exact this.1

theorem mem_entriesUnder_dirLe {fs : FS} {d p : FPath} (h : p ∈ fs.entriesUnder d) :
    dirLe d p = true := by
  rw [FS.entriesUnder] at h
  rcases List.mem_append.mp h with h | h
  · exact mem_filesUnder_dirLe h
  · have := (List.mem_filter.mp h).2
    simp only [Bool.and_eq_true] at this
    exact this.1

theorem copyImages1_agree (out oi : FPath) (pfx : String) (b : FS)
    (hoi : dirLe out oi = true) (hpre : ∀ q ∈ prefixesOf oi, b.isDir q = true) :
    ∀ (l : List FPath) (a : FS) (ci : Nat),
      FS.Agree out a b → (∀ p ∈ l, dirLe out p = false) →
      (copyImages1 false oi pfx l a ci).2 = (copyImages1 true oi pfx l b ci).2 ∧
        FS.Agree out (copyImages1 false oi pfx l a ci).1 b := by
  intro l
  induction l with
  | nil => intro a ci hag hl; exact ⟨rfl, hag⟩
  | cons img rest ih =>
    intro a ci hag hl
    have himg : a.isFile img = b.isFile img := agree_isFile hag img (hl img (by simp))
    have hlr : ∀ p ∈ rest, dirLe out p = false := fun p hp => hl p (by simp [hp])
    by_cases hf : a.isFile img = true
    · have hfb : b.isFile img = true := himg ▸ hf
      rw [copyImages1, copyImages1, if_pos hf, if_pos hfb]
      show (copyImages1 false oi pfx rest
          ((a.mkdirP oi).writeFile (oi ++ [pfx ++ "_" ++ lastComp img])
            ((a.mkdirP oi).readFile img)) (ci + 1)).2 =
          (copyImages1 true oi pfx rest b (ci + 1)).2 ∧
        FS.Agree out (copyImages1 false oi pfx rest
          ((a.mkdirP oi).writeFile (oi ++ [pfx ++ "_" ++ lastComp img])
            ((a.mkdirP oi).readFile img)) (ci + 1)).1 b
      rw [agree_mkdirP hag oi hpre]
      have hdest : dirLe out (oi ++ [pfx ++ "_" ++ lastComp img]) = true :=
        dirLe_trans _ _ _ hoi (dirLe_append oi _)
      exact ih _ (ci + 1) (agree_writeFile hag _ hdest _) hlr
    · have hfb : ¬(b.isFile img = true) := by rw [← himg]; exact hf
      rw [copyImages1, copyImages1, if_neg hf, if_neg hfb]
      exact ih _ ci hag hlr

theorem copyLabels1_agree (out ol : FPath) (pfx : String) (target_id : Int) (b : FS)
    (hol : dirLe out ol = true) (hpre : ∀ q ∈ prefixesOf ol, b.isDir q = true) :
    ∀ (l : List FPath) (a : FS) (cc : CC) (cl bw : Nat),
      FS.Agree out a b → (∀ p ∈ l, dirLe out p = false) →
      (copyLabels1 false ol pfx target_id l a cc cl bw).2 =
          (copyLabels1 true ol pfx target_id l b cc cl bw).2 ∧
        FS.Agree out (copyLabels1 false ol pfx target_id l a cc cl bw).1 b := by
  intro l
  induction l with
  | nil => intro a cc cl bw hag hl; exact ⟨rfl, hag⟩
  | cons lab rest ih =>
    intro a cc cl bw hag hl
    have hlab : a.isFile lab = b.isFile lab := agree_isFile hag lab (hl lab (by simp))
    have hlr : ∀ p ∈ rest, dirLe out p = false := fun p hp => hl p (by simp [hp])
    by_cases hf : a.isFile lab = true
    · have hfb : b.isFile lab = true := hlab ▸ hf
      rw [copyLabels1, copyLabels1, if_pos hf, if_pos hfb]
      show (copyLabels1 false ol pfx target_id rest
          ((a.mkdirP ol).writeFile (ol ++ [pfx ++ "_" ++ lastComp lab])
            (labelText (remapFile1 target_id cc bw ((a.mkdirP ol).readFile lab)).1))
          (remapFile1 target_id cc bw ((a.mkdirP ol).readFile lab)).2.1 (cl + 1)
          (remapFile1 target_id cc bw ((a.mkdirP ol).readFile lab)).2.2).2 =
          (copyLabels1 true ol pfx target_id rest b
            (remapFile1 target_id cc bw (b.readFile lab)).2.1 (cl + 1)
            (remapFile1 target_id cc bw (b.readFile lab)).2.2).2 ∧
        FS.Agree out (copyLabels1 false ol pfx target_id rest
          ((a.mkdirP ol).writeFile (ol ++ [pfx ++ "_" ++ lastComp lab])
            (labelText (remapFile1 target_id cc bw ((a.mkdirP ol).readFile lab)).1))
          (remapFile1 target_id cc bw ((a.mkdirP ol).readFile lab)).2.1 (cl + 1)
          (remapFile1 target_id cc bw ((a.mkdirP ol).readFile lab)).2.2).1 b
      rw [agree_mkdirP hag ol hpre, agree_readFile hag lab (hl lab (by simp))]
      have hdest : dirLe out (ol ++ [pfx ++ "_" ++ lastComp lab]) = true :=
        dirLe_trans _ _ _ hol (dirLe_append ol _)
      exact ih _ _ _ _ (agree_writeFile hag _ hdest _) hlr
    · have hfb : ¬(b.isFile lab = true) := by rw [← hlab]; exact hf
      rw [copyLabels1, copyLabels1, if_neg hf, if_neg hfb]
      exact ih _ _ _ _ hag hlr

theorem copyImages2_agree (out oi : FPath) (pfx : String) (b : FS)
    (hoi : dirLe out oi = true) (hpre : ∀ q ∈ prefixesOf oi, b.isDir q = true) :
    ∀ (l : List FPath) (a : FS) (ci : Nat),
      FS.Agree out a b →
      (copyImages2 false oi pfx l a ci).2 = (copyImages2 true oi pfx l b ci).2 ∧
        FS.Agree out (copyImages2 false oi pfx l a ci).1 b := by
  intro l
  induction l with
  | nil => intro a ci hag; exact ⟨rfl, hag⟩
  | cons img rest ih =>
    intro a ci hag
    rw [copyImages2, copyImages2]
    show (copyImages2 false oi pfx rest
        ((a.mkdirP oi).writeFile (oi ++ [pfx ++ "_" ++ lastComp img])
          ((a.mkdirP oi).readFile img)) (ci + 1)).2 =
        (copyImages2 true oi pfx rest b (ci + 1)).2 ∧
      FS.Agree out (copyImages2 false oi pfx rest
        ((a.mkdirP oi).writeFile (oi ++ [pfx ++ "_" ++ lastComp img])
          ((a.mkdirP oi).readFile img)) (ci + 1)).1 b
    rw [agree_mkdirP hag oi hpre]
    have hdest : dirLe out (oi ++ [pfx ++ "_" ++ lastComp img]) = true :=
      dirLe_trans _ _ _ hoi (dirLe_append oi _)
    exact ih _ (ci + 1) (agree_writeFile hag _ hdest _)

theorem copyLabels2_agree (out ol : FPath) (pfx : String) (target_id : Int) (b : FS)
    (hol : dirLe out ol = true) (hpre : ∀ q ∈ prefixesOf ol, b.isDir q = true) :
    ∀ (l : List FPath) (a : FS) (cc : CC) (cl bw : Nat),
      FS.Agree out a b → (∀ p ∈ l, dirLe out p = false) →
      (copyLabels2 false ol pfx target_id l a cc cl bw).2 =
          (copyLabels2 true ol pfx target_id l b cc cl bw).2 ∧
        FS.Agree out (copyLabels2 false ol pfx target_id l a cc cl bw).1 b := by
  intro l
  induction l with
  | nil => intro a cc cl bw hag hl; exact ⟨rfl, hag⟩
  | cons lab rest ih =>
    intro a cc cl bw hag hl
    have hlr : ∀ p ∈ rest, dirLe out p = false := fun p hp => hl p (by simp [hp])
    rw [copyLabels2, copyLabels2]
    show (copyLabels2 false ol pfx target_id rest
        ((a.mkdirP ol).writeFile (ol ++ [pfx ++ "_" ++ lastComp lab])
          (labelText (remapFile2 target_id cc bw ((a.mkdirP ol).readFile lab)).1))
        (remapFile2 target_id cc bw ((a.mkdirP ol).readFile lab)).2.1 (cl + 1)
        (remapFile2 target_id cc bw ((a.mkdirP ol).readFile lab)).2.2).2 =
        (copyLabels2 true ol pfx target_id rest b
          (remapFile2 target_id cc bw (b.readFile lab)).2.1 (cl + 1)
          (remapFile2 target_id cc bw (b.readFile lab)).2.2).2 ∧
      FS.Agree out (copyLabels2 false ol pfx target_id rest
        ((a.mkdirP ol).writeFile (ol ++ [pfx ++ "_" ++ lastComp lab])
          (labelText (remapFile2 target_id cc bw ((a.mkdirP ol).readFile lab)).1))
        (remapFile2 target_id cc bw ((a.mkdirP ol).readFile lab)).2.1 (cl + 1)
        (remapFile2 target_id cc bw ((a.mkdirP ol).readFile lab)).2.2).1 b
    rw [agree_mkdirP hag ol hpre, agree_readFile hag lab (hl lab (by simp))]
    have hdest : dirLe out (ol ++ [pfx ++ "_" ++ lastComp lab]) = true :=
      dirLe_trans _ _ _ hol (dirLe_append ol _)
    exact ih _ _ _ _ (agree_writeFile hag _ hdest _) hlr

theorem process_split1_agree (out : FPath) (b : FS) (dataset_dir : FPath) (split : String)
    (pfx : String) (target_id : Int) (cc : CC) (a : FS)
    (hag : FS.Agree out a b)
    (hdd1 : dirLe out dataset_dir = false) (hdd2 : dirLe dataset_dir out = false)
    (hpi : ∀ q ∈ prefixesOf (out ++ [split, "images"]), b.isDir q = true)
    (hpl : ∀ q ∈ prefixesOf (out ++ [split, "labels"]), b.isDir q = true) :
    ((process_split1 a dataset_dir split (out ++ [split, "images"])
          (out ++ [split, "labels"]) pfx target_id cc false).cc =
        (process_split1 b dataset_dir split (out ++ [split, "images"])
          (out ++ [split, "labels"]) pfx target_id cc true).cc ∧
      (process_split1 a dataset_dir split (out ++ [split, "images"])
          (out ++ [split, "labels"]) pfx target_id cc false).images_copied =
        (process_split1 b dataset_dir split (out ++ [split, "images"])
          (out ++ [split, "labels"]) pfx target_id cc true).images_copied ∧
      (process_split1 a dataset_dir split (out ++ [split, "images"])
          (out ++ [split, "labels"]) pfx target_id cc false).labels_copied =
        (process_split1 b dataset_dir split (out ++ [split, "images"])
          (out ++ [split, "labels"]) pfx target_id cc true).labels_copied ∧
      (process_split1 a dataset_dir split (out ++ [split, "images"])
          (out ++ [split, "labels"]) pfx target_id cc false).boxes =
        (process_split1 b dataset_dir split (out ++ [split, "images"])
          (out ++ [split, "labels"]) pfx target_id cc true).boxes) ∧
      FS.Agree out (process_split1 a dataset_dir split (out ++ [split, "images"])
        (out ++ [split, "labels"]) pfx target_id cc false).fs b := by
  have hIm := incomparable_under hdd1 hdd2
    (dirLe_append dataset_dir [split, "images"])
  have hLa := incomparable_under hdd1 hdd2
    (dirLe_append dataset_dir [split, "labels"])
  have hpe : a.pathExists (dataset_dir ++ [split, "images"]) =
      b.pathExists (dataset_dir ++ [split, "images"]) := agree_pathExists hag _ hIm.1
  have hpeL : a.pathExists (dataset_dir ++ [split, "labels"]) =
      b.pathExists (dataset_dir ++ [split, "labels"]) := agree_pathExists hag _ hLa.1
  have hent : a.entriesUnder (dataset_dir ++ [split, "images"]) =
      b.entriesUnder (dataset_dir ++ [split, "images"]) :=
    agree_entriesUnder hag _ hIm.1 hIm.2
  have hentL : a.entriesUnder (dataset_dir ++ [split, "labels"]) =
      b.entriesUnder (dataset_dir ++ [split, "labels"]) :=
    agree_entriesUnder hag _ hLa.1 hLa.2
  have hmemI : ∀ p ∈ (if b.pathExists (dataset_dir ++ [split, "images"]) = true then
      b.entriesUnder (dataset_dir ++ [split, "images"]) else []), dirLe out p = false := by
    intro p hp
    by_cases hex : b.pathExists (dataset_dir ++ [split, "images"]) = true
    · rw [if_pos hex] at hp
      exact under_incomparable_outside hIm.1 hIm.2 (mem_entriesUnder_dirLe hp)
    · rw [if_neg hex] at hp
      simp at hp
  have hmemL : ∀ p ∈ (if b.pathExists (dataset_dir ++ [split, "labels"]) = true then
      (b.entriesUnder (dataset_dir ++ [split, "labels"])).filter
        (fun p => endsWithStr ".txt" (lastComp p)) else []), dirLe out p = false := by
    intro p hp
    by_cases hex : b.pathExists (dataset_dir ++ [split, "labels"]) = true
    · rw [if_pos hex] at hp
      exact under_incomparable_outside hLa.1 hLa.2
        (mem_entriesUnder_dirLe (List.mem_filter.mp hp).1)
    · rw [if_neg hex] at hp
      simp at hp
  simp only [process_split1]
  rw [hpe, hpeL, hent, hentL]
  obtain ⟨he1, hagr1⟩ := copyImages1_agree out (out ++ [split, "images"]) pfx b
    (dirLe_append out [split, "images"]) hpi
    (if b.pathExists (dataset_dir ++ [split, "images"]) = true then
      b.entriesUnder (dataset_dir ++ [split, "images"]) else []) a 0 hag hmemI
  obtain ⟨he2, hagr2⟩ := copyLabels1_agree out (out ++ [split, "labels"]) pfx target_id b
    (dirLe_append out [split, "labels"]) hpl
    (if b.pathExists (dataset_dir ++ [split, "labels"]) = true then
      (b.entriesUnder (dataset_dir ++ [split, "labels"])).filter
        (fun p => endsWithStr ".txt" (lastComp p)) else [])
    (copyImages1 false (out ++ [split, "images"]) pfx
      (if b.pathExists (dataset_dir ++ [split, "images"]) = true then
        b.entriesUnder (dataset_dir ++ [split, "images"]) else []) a 0).1
    cc 0 0 hagr1 hmemL
  rw [copyImages1_dry_fs]
  refine ⟨⟨?_, ?_, ?_, ?_⟩, ?_⟩
  · rw [he2]
  · rw [he1]
  · rw [he2]
  · rw [he2]
  · exact hagr2

theorem agree_findSplitAux {out : FPath} {a b : FS} (hag : FS.Agree out a b)
    (dataset_dir : FPath) (hdd1 : dirLe out dataset_dir = false)
    (hdd2 : dirLe dataset_dir out = false) :
    ∀ als, findSplitAux a dataset_dir als = findSplitAux b dataset_dir als := by
  intro als
  induction als with
  | nil => rfl
  | cons al rest ih =>
    rw [findSplitAux, findSplitAux]
    have h1 : a.pathExists (dataset_dir ++ [al, "images"]) =
        b.pathExists (dataset_dir ++ [al, "images"]) :=
      agree_pathExists hag _ (incomparable_under hdd1 hdd2 (dirLe_append _ _)).1
    have h2 : a.isDir (dataset_dir ++ [al, "images"]) =
        b.isDir (dataset_dir ++ [al, "images"]) := agree_isDir hag _
    have h3 : a.pathExists (dataset_dir ++ [al, "labels"]) =
        b.pathExists (dataset_dir ++ [al, "labels"]) :=
      agree_pathExists hag _ (incomparable_under hdd1 hdd2 (dirLe_append _ _)).1
    rw [h1, h2, h3, ih]

theorem findSplitAux_shape (fs : FS) (dataset_dir : FPath) :
    ∀ (als : List String) (idir : FPath) (ldir : Option FPath),
      findSplitAux fs dataset_dir als = (some idir, ldir) →
      ∃ al, idir = dataset_dir ++ [al, "images"] ∧
        (ldir = none ∨ ldir = some (dataset_dir ++ [al, "labels"])) := by
  intro als
  induction als with
  | nil => intro idir ldir h; simp [findSplitAux] at h
  | cons al rest ih =>
    intro idir ldir h
    rw [findSplitAux] at h
    split_ifs at h
    · simp only [Prod.mk.injEq, Option.some.injEq] at h
      obtain ⟨rfl, h2⟩ := h
      exact ⟨al, rfl, Or.inr h2.symm⟩
    · simp only [Prod.mk.injEq, Option.some.injEq] at h
      obtain ⟨rfl, h2⟩ := h
      exact ⟨al, rfl, Or.inl h2.symm⟩
    · exact ih _ _ h

theorem process_split2_agree (out : FPath) (b : FS) (dataset_dir : FPath)
    (split_key : String) (pfx : String) (target_id : Int) (cc : CC) (a : FS)
    (hag : FS.Agree out a b)
    (hdd1 : dirLe out dataset_dir = false) (hdd2 : dirLe dataset_dir out = false)
    (hpi : ∀ q ∈ prefixesOf (out ++ [split_key, "images"]), b.isDir q = true)
    (hpl : ∀ q ∈ prefixesOf (out ++ [split_key, "labels"]), b.isDir q = true) :
    ((process_split2 a dataset_dir split_key (out ++ [split_key, "images"])
          (out ++ [split_key, "labels"]) pfx target_id cc false).cc =
        (process_split2 b dataset_dir split_key (out ++ [split_key, "images"])
          (out ++ [split_key, "labels"]) pfx target_id cc true).cc ∧
      (process_split2 a dataset_dir split_key (out ++ [split_key, "images"])
          (out ++ [split_key, "labels"]) pfx target_id cc false).images_copied =
        (process_split2 b dataset_dir split_key (out ++ [split_key, "images"])
          (out ++ [split_key, "labels"]) pfx target_id cc true).images_copied ∧
      (process_split2 a dataset_dir split_key (out ++ [split_key, "images"])
          (out ++ [split_key, "labels"]) pfx target_id cc false).labels_copied =
        (process_split2 b dataset_dir split_key (out ++ [split_key, "images"])
          (out ++ [split_key, "labels"]) pfx target_id cc true).labels_copied ∧
      (process_split2 a dataset_dir split_key (out ++ [split_key, "images"])
          (out ++ [split_key, "labels"]) pfx target_id cc false).boxes =
        (process_split2 b dataset_dir split_key (out ++ [split_key, "images"])
          (out ++ [split_key, "labels"]) pfx target_id cc true).boxes) ∧
      FS.Agree out (process_split2 a dataset_dir split_key (out ++ [split_key, "images"])
        (out ++ [split_key, "labels"]) pfx target_id cc false).fs b := by
  have hf : find_split_dirs a dataset_dir split_key =
      find_split_dirs b dataset_dir split_key := by
    rw [find_split_dirs, find_split_dirs]
    exact agree_findSplitAux hag dataset_dir hdd1 hdd2 _
  rw [process_split2, process_split2, hf]
  rcases hfd : find_split_dirs b dataset_dir split_key with ⟨idirOpt, ldirOpt⟩
  cases idirOpt with
  | none => exact ⟨⟨rfl, rfl, rfl, rfl⟩, hag⟩
  | some idir =>
    obtain ⟨al, rfl, hld⟩ := findSplitAux_shape b dataset_dir (SPLIT_ALIASES split_key)
      idir ldirOpt (by rw [← find_split_dirs]; exact hfd)
    have hI := incomparable_under hdd1 hdd2 (dirLe_append dataset_dir [al, "images"])
    have hii : iter_images a (dataset_dir ++ [al, "images"]) =
        iter_images b (dataset_dir ++ [al, "images"]) := by
      rw [iter_images, iter_images, agree_filesUnder hag _ hI.1 hI.2]
    obtain ⟨he1, hagr1⟩ := copyImages2_agree out (out ++ [split_key, "images"]) pfx b
      (dirLe_append out [split_key, "images"]) hpi
      (iter_images b (dataset_dir ++ [al, "images"])) a 0 hag
    rcases hld with rfl | rfl
    · dsimp only
      rw [hii]
      exact ⟨⟨rfl, by rw [he1], rfl, rfl⟩, hagr1⟩
    · dsimp only
      rw [hii]
      have hL := incomparable_under hdd1 hdd2
        (dirLe_append dataset_dir [al, "labels"])
      rw [copyImages2_dry (out ++ [split_key, "images"]) pfx
        (iter_images b (dataset_dir ++ [al, "images"])) b 0] at he1 ⊢
      dsimp only
      have hll : iter_label_files (copyImages2 false (out ++ [split_key, "images"]) pfx
          (iter_images b (dataset_dir ++ [al, "images"])) a 0).1
            (some (dataset_dir ++ [al, "labels"])) =
          iter_label_files b (some (dataset_dir ++ [al, "labels"])) := by
        rw [iter_label_files, iter_label_files, agree_filesUnder hagr1 _ hL.1 hL.2]
      rw [hll]
      have hmemL : ∀ p ∈ iter_label_files b (some (dataset_dir ++ [al, "labels"])),
          dirLe out p = false := by
        intro p hp
        rw [iter_label_files] at hp
        exact under_incomparable_outside hL.1 hL.2
          (mem_filesUnder_dirLe (List.mem_filter.mp hp).1)
      obtain ⟨he2, hagr2⟩ := copyLabels2_agree out (out ++ [split_key, "labels"]) pfx
        target_id b (dirLe_append out [split_key, "labels"]) hpl
        (iter_label_files b (some (dataset_dir ++ [al, "labels"])))
        (copyImages2 false (out ++ [split_key, "images"]) pfx
          (iter_images b (dataset_dir ++ [al, "images"])) a 0).1
        cc 0 0 hagr1 hmemL
      exact ⟨⟨by rw [he2], by rw [he1], by rw [he2], by rw [he2]⟩, hagr2⟩

theorem splitLoop1_agree (root out : FPath) (ds_name pfx : String) (target_id : Int)
    (b : FS) (hdd1 : dirLe out (root ++ [ds_name]) = false)
    (hdd2 : dirLe (root ++ [ds_name]) out = false)
    (hb : ∀ s ∈ (["train", "valid", "test"] : List String),
      (∀ q ∈ prefixesOf (out ++ [s, "images"]), b.isDir q = true) ∧
      (∀ q ∈ prefixesOf (out ++ [s, "labels"]), b.isDir q = true)) :
    ∀ (splits : List String),
      (∀ s ∈ splits, s ∈ (["train", "valid", "test"] : List String)) →
      ∀ (a : FS) (cc : CC) (acc : List (String × SplitStats)) (tot : Nat),
      FS.Agree out a b →
      (splitLoop1 root out ds_name pfx target_id false splits a cc acc tot).2 =
          (splitLoop1 root out ds_name pfx target_id true splits b cc acc tot).2 ∧
        FS.Agree out
          (splitLoop1 root out ds_name pfx target_id false splits a cc acc tot).1 b := by
  intro splits
  induction splits with
  | nil => intro _ a cc acc tot hag; exact ⟨rfl, hag⟩
  | cons s rest ih =>
    intro hsub a cc acc tot hag
    rw [splitLoop1, splitLoop1]
    obtain ⟨⟨hcc, hci, hcl, hbx⟩, hagr⟩ := process_split1_agree out b (root ++ [ds_name]) s
      pfx target_id cc a hag hdd1 hdd2 (hb s (hsub s (by simp))).1 (hb s (hsub s (by simp))).2
    rw [process_split1_dry_fs, hcc, hci, hcl, hbx]
    exact ih (fun x hx => hsub x (by simp [hx])) _ _ _ _ hagr

theorem splitLoop2_agree (out ds_path : FPath) (pfx : String) (target_id : Int)
    (b : FS) (hdd1 : dirLe out ds_path = false) (hdd2 : dirLe ds_path out = false)
    (hb : ∀ s ∈ (["train", "valid", "test"] : List String),
      (∀ q ∈ prefixesOf (out ++ [s, "images"]), b.isDir q = true) ∧
      (∀ q ∈ prefixesOf (out ++ [s, "labels"]), b.isDir q = true)) :
    ∀ (splits : List String),
      (∀ s ∈ splits, s ∈ (["train", "valid", "test"] : List String)) →
      ∀ (a : FS) (cc : CC) (acc : List (String × SplitStats)) (tot : Nat),
      FS.Agree out a b →
      (splitLoop2 out ds_path pfx target_id false splits a cc acc tot).2 =
          (splitLoop2 out ds_path pfx target_id true splits b cc acc tot).2 ∧
        FS.Agree out (splitLoop2 out ds_path pfx target_id false splits a cc acc tot).1 b := by
  intro splits
  induction splits with
  | nil => intro _ a cc acc tot hag; exact ⟨rfl, hag⟩
  | cons s rest ih =>
    intro hsub a cc acc tot hag
    rw [splitLoop2, splitLoop2]
    obtain ⟨⟨hcc, hci, hcl, hbx⟩, hagr⟩ := process_split2_agree out b ds_path s
      pfx target_id cc a hag hdd1 hdd2 (hb s (hsub s (by simp))).1 (hb s (hsub s (by simp))).2
    rw [process_split2_dry_fs, hcc, hci, hcl, hbx]
    exact ih (fun x hx => hsub x (by simp [hx])) _ _ _ _ hagr

theorem mergeLoop1_agree (root out : FPath) (b : FS)
    (hb : ∀ s ∈ (["train", "valid", "test"] : List String),
      (∀ q ∈ prefixesOf (out ++ [s, "images"]), b.isDir q = true) ∧
      (∀ q ∈ prefixesOf (out ++ [s, "labels"]), b.isDir q = true)) :
    ∀ (ds : List (String × Int)),
      (∀ e ∈ ds, dirLe out (root ++ [e.1]) = false ∧ dirLe (root ++ [e.1]) out = false) →
      ∀ (a : FS) (stats : Stats) (cc : CC) (tot : Nat), FS.Agree out a b →
      (mergeLoop1 root out false ds a stats cc tot).2 =
          (mergeLoop1 root out true ds b stats cc tot).2 ∧
        FS.Agree out (mergeLoop1 root out false ds a stats cc tot).1 b := by
  intro ds
  induction ds with
  | nil => intro _ a stats cc tot hag; exact ⟨rfl, hag⟩
  | cons e rest ih =>
    intro hds a stats cc tot hag
    rcases e with ⟨ds_name, target_id⟩
    have hinc := hds (ds_name, target_id) (by simp)
    have hpe : a.pathExists (root ++ [ds_name]) = b.pathExists (root ++ [ds_name]) :=
      agree_pathExists hag _ hinc.1
    rw [mergeLoop1, mergeLoop1]
    by_cases hex : b.pathExists (root ++ [ds_name]) = true
    · rw [if_pos (hpe.trans hex), if_pos hex]
      obtain ⟨hsp, hagr⟩ := splitLoop1_agree root out ds_name (sanitize1 ds_name) target_id
        b hinc.1 hinc.2 hb ["train", "valid", "test"] (fun x hx => hx) a cc [] 0 hag
      dsimp only
      rw [splitLoop1_dry_fs, hsp]
      exact ih (fun x hx => hds x (by simp [hx])) _ _ _ _ hagr
    · rw [if_neg (by rw [hpe]; exact hex), if_neg hex]
      exact ih (fun x hx => hds x (by simp [hx])) _ _ _ _ hag

theorem mergeLoop2_agree (out : FPath) (b : FS)
    (hb : ∀ s ∈ (["train", "valid", "test"] : List String),
      (∀ q ∈ prefixesOf (out ++ [s, "images"]), b.isDir q = true) ∧
      (∀ q ∈ prefixesOf (out ++ [s, "labels"]), b.isDir q = true)) :
    ∀ (ds : List FPath),
      (∀ d ∈ ds, dirLe out d = false ∧ dirLe d out = false) →
      ∀ (a : FS) (stats : Stats) (cc : CC) (tot : Nat), FS.Agree out a b →
      (mergeLoop2 out false ds a stats cc tot).2 =
          (mergeLoop2 out true ds b stats cc tot).2 ∧
        FS.Agree out (mergeLoop2 out false ds a stats cc tot).1 b := by
  intro ds
  induction ds with
  | nil => intro _ a stats cc tot hag; exact ⟨rfl, hag⟩
  | cons d rest ih =>
    intro hds a stats cc tot hag
    have hinc := hds d (by simp)
    rw [mergeLoop2, mergeLoop2]
    obtain ⟨hsp, hagr⟩ := splitLoop2_agree out d ( sanitize_prefix (lastComp d))
      FORCED_TARGET_ID b hinc.1 hinc.2 hb ["train", "valid", "test"] (fun x hx => hx)
      a cc [] 0 hag
    try dsimp only
    rw [splitLoop2_dry_fs, hsp]
    exact ih (fun x hx => hds x (by simp [hx])) _ _ _ _ hagr

/-- An input tree for `merge_dataset_1` holding one configured dataset with
a single image. -/
def fsAlias : FS :=
  ⟨[["r"], ["r", "credit-cards.yolov11"], ["r", "credit-cards.yolov11", "train"],
    ["r", "credit-cards.yolov11", "train", "images"]],
   [(["r", "credit-cards.yolov11", "train", "images", "a.jpg"], "x")]⟩

/-- C1, counterexample: when the output directory aliases the configured
`passport.yolov11` dataset folder, preview and mutating runs of
`merge_dataset_1.merge` return different statistics, because the mutating
run re-enumerates its own copies when it processes the aliased folder. -/
theorem c1_counterexample :
    (merge1 fsAlias ["r"] ["r", "passport.yolov11"] true).stats ≠
      (merge1 fsAlias ["r"] ["r", "passport.yolov11"] false).stats := by decide

/-- C1 as amended: provided the output directory is disjoint from every
dataset directory (neither is a path-leading-part of the other), a preview
run and a mutating run of either script's `merge` return identical
statistics, class counts and box totals. -/
theorem c1_dry_run_equivalence (fs : FS) (root out : FPath) (datasets : List FPath)
    (h1 : ∀ e ∈ DATASETS, dirLe out (root ++ [e.1]) = false ∧
      dirLe (root ++ [e.1]) out = false)
    (h2 : ∀ d ∈ datasets, dirLe out d = false ∧ dirLe d out = false) :
    ((merge1 fs root out true).stats = (merge1 fs root out false).stats ∧
      (merge1 fs root out true).class_counts = (merge1 fs root out false).class_counts ∧
      (merge1 fs root out true).total_boxes = (merge1 fs root out false).total_boxes) ∧
    ((merge2 fs root out datasets true).stats = (merge2 fs root out datasets false).stats ∧
      (merge2 fs root out datasets true).class_counts =
        (merge2 fs root out datasets false).class_counts ∧
      (merge2 fs root out datasets true).total_boxes =
        (merge2 fs root out datasets false).total_boxes) := by
  have hb := mkOutDirs_prefixes fs out
  obtain ⟨hm1, hfs1⟩ := mergeLoop1_agree root out (mkOutDirs fs out) hb DATASETS h1
    (mkOutDirs fs out) [] [] 0 (agree_refl _ _)
  obtain ⟨hm2, hfs2⟩ := mergeLoop2_agree out (mkOutDirs fs out) hb datasets h2
    (mkOutDirs fs out) [] [] 0 (agree_refl _ _)
  simp only [merge1, merge2]
  try dsimp only
  exact ⟨⟨by rw [hm1], by rw [hm1], by rw [hm1]⟩, ⟨by rw [hm2], by rw [hm2], by rw [hm2]⟩⟩

/-- Witness for C1 at a concrete disjoint configuration. -/
theorem c1_dry_run_equivalence_witness :
    ((merge1 fsOddExt ["r"] ["o"] true).stats = (merge1 fsOddExt ["r"] ["o"] false).stats ∧
      (merge1 fsOddExt ["r"] ["o"] true).class_counts =
        (merge1 fsOddExt ["r"] ["o"] false).class_counts ∧
      (merge1 fsOddExt ["r"] ["o"] true).total_boxes =
        (merge1 fsOddExt ["r"] ["o"] false).total_boxes) ∧
    ((merge2 fsOddExt ["r"] ["o"] [["d"]] true).stats =
        (merge2 fsOddExt ["r"] ["o"] [["d"]] false).stats ∧
      (merge2 fsOddExt ["r"] ["o"] [["d"]] true).class_counts =
        (merge2 fsOddExt ["r"] ["o"] [["d"]] false).class_counts ∧
      (merge2 fsOddExt ["r"] ["o"] [["d"]] true).total_boxes =
        (merge2 fsOddExt ["r"] ["o"] [["d"]] false).total_boxes) :=
  c1_dry_run_equivalence fsOddExt ["r"] ["o"] [["d"]] (by decide) (by decide)

/-! ### The export boundary -/

theorem nextFreeAux_exists_all (fs : FS) (parent : FPath) (stem sfx : String) :
    ∀ (fuel i : Nat),
      fs.pathExists (nextFreeAux fs parent stem sfx fuel i) = true →
      ∀ j, i ≤ j → j < i + fuel + 1 →
        fs.pathExists (parent ++ [candidateName stem sfx j]) = true := by
  intro fuel
  induction fuel with
  | zero =>
    intro i h j h1 h2
    have hj : j = i := by omega
    subst hj
    simpa [nextFreeAux] using h
  | succ fuel ih =>
    intro i h j h1 h2
    simp only [nextFreeAux] at h
    by_cases hc : fs.pathExists (parent ++ [candidateName stem sfx i]) = true
    · rw [if_pos hc] at h
      by_cases hj : j = i
      · subst hj; exact hc
      · exact ih (i + 1) h j (by omega) (by omega)
    · rw [if_neg hc] at h
      exact absurd h hc

theorem string_append_data (x y : String) : (x ++ y).data = x.data ++ y.data := rfl

theorem candidateName_inj (stem sfx : String) : ∀ {i j : Nat},
    candidateName stem sfx i = candidateName stem sfx j → i = j := by
  intro i j h
  apply natDigits_inj
  have hdata : ((stem ++ "_") ++ natStr i ++ sfx).data =
      ((stem ++ "_") ++ natStr j ++ sfx).data := by
    have h2 : (stem ++ "_" ++ natStr i ++ sfx) = (stem ++ "_" ++ natStr j ++ sfx) := h
    rw [h2]
  simp only [string_append_data, List.append_assoc] at hdata
  have h3 := List.append_cancel_left hdata
  have h4 := List.append_cancel_left h3
  exact List.append_cancel_right h4

theorem pathExists_mem_allPaths {fs : FS} {p : FPath} (h : fs.pathExists p = true) :
    p ∈ fs.files.map Prod.fst ++ fs.dirs := by
  rw [FS.pathExists, Bool.or_eq_true] at h
  rw [List.mem_append]
  rcases h with h | h
  · rw [FS.isFile, Option.isSome_iff_exists] at h
    obtain ⟨e, he⟩ := h
    have hmem := List.mem_of_find?_eq_some he
    have heq : e.1 = p := by simpa using List.find?_some he
    exact Or.inl (heq ▸ List.mem_map_of_mem Prod.fst hmem)
  · rw [isDir_mem] at h
    exact Or.inr h

theorem next_free_path_not_exists (fs : FS) (base : FPath) :
    fs.pathExists (next_free_path fs base) = false := by
  rw [next_free_path]
  split_ifs with hex
  · by_contra hcon
    have hres : fs.pathExists (nextFreeAux fs base.dropLast (stemOf (lastComp base))
        (suffixOf (lastComp base)) (fs.files.length + fs.dirs.length + 1) 1) = true := by
      cases hx : fs.pathExists (nextFreeAux fs base.dropLast (stemOf (lastComp base))
          (suffixOf (lastComp base)) (fs.files.length + fs.dirs.length + 1) 1)
      · exact absurd hx hcon
      · rfl
    have hall := nextFreeAux_exists_all fs base.dropLast (stemOf (lastComp base))
      (suffixOf (lastComp base)) (fs.files.length + fs.dirs.length + 1) 1 hres
    have hlist : ∀ k ∈ List.range (fs.files.length + fs.dirs.length + 2),
        fs.pathExists (base.dropLast ++ [candidateName (stemOf (lastComp base))
          (suffixOf (lastComp base)) (1 + k)]) = true := by
      intro k hk
      rw [List.mem_range] at hk
      exact hall (1 + k) (by omega) (by omega)
    have hnodup : ((List.range (fs.files.length + fs.dirs.length + 2)).map
        (fun k => base.dropLast ++ [candidateName (stemOf (lastComp base))
          (suffixOf (lastComp base)) (1 + k)])).Nodup := by
      refine List.Nodup.map ?_ (List.nodup_range _)
      intro x y hxy
      have h1 := List.append_cancel_left hxy
      have h2 : candidateName (stemOf (lastComp base)) (suffixOf (lastComp base)) (1 + x) =
          candidateName (stemOf (lastComp base)) (suffixOf (lastComp base)) (1 + y) := by
        injection h1
      have := candidateName_inj _ _ h2
      omega
    have hsub : ((List.range (fs.files.length + fs.dirs.length + 2)).map
        (fun k => base.dropLast ++ [candidateName (stemOf (lastComp base))
          (suffixOf (lastComp base)) (1 + k)])) ⊆ fs.files.map Prod.fst ++ fs.dirs := by
      intro p hp
      obtain ⟨k, hk, rfl⟩ := List.mem_map.mp hp
      exact pathExists_mem_allPaths (hlist k hk)
    have hlen := (List.Nodup.subperm hnodup hsub).length_le
    simp only [List.length_map, List.length_range, List.length_append] at hlen
    omega
  · cases hx : fs.pathExists base
    · rfl
    · exact absurd hx hex

/-- C9: `next_free_path` always returns a non-existing path (the base path
itself when it is free), so the export copy never lands on an existing
artifact; a missing produced artifact exits with code 2, while a directory
artifact whose chosen destination is occupied exits with code 3 — two
distinct exit signals. -/
theorem c9_export_collision (fs : FS) (base produced cwd : FPath) (outname : String)
    (dirp target : FPath) :
    (fs.pathExists (next_free_path fs base) = false ∧
      (fs.pathExists base = false → next_free_path fs base = base)) ∧
    (fs.pathExists produced = false → exportFinish fs produced cwd outname =
      ExportOutcome.exit 2) ∧
    (dirp ≠ target → fs.isDir dirp = true → fs.pathExists target = true →
      copyStep fs dirp target = ExportOutcome.exit 3) ∧
    (ExportOutcome.exit 2 ≠ ExportOutcome.exit 3) := by
  refine ⟨⟨next_free_path_not_exists fs base, ?_⟩, ?_, ?_, by decide⟩
  · intro h
    rw [next_free_path, if_neg (by simp [h])]
  · intro h
    rw [exportFinish, if_pos (by simp [h])]
  · intro h1 h2 h3
    rw [copyStep, if_pos h1, if_pos h2, if_pos h3]

/-- Witness for C9 on a filesystem with an occupied destination. -/
theorem c9_export_collision_witness :
    FS.pathExists ⟨[["d"], ["t"]], []⟩
        (next_free_path ⟨[["d"], ["t"]], []⟩ ["b"]) = false ∧
      exportFinish ⟨[["d"], ["t"]], []⟩ ["missing"] [] "coreml" = ExportOutcome.exit 2 ∧
      copyStep ⟨[["d"], ["t"]], []⟩ ["d"] ["t"] = ExportOutcome.exit 3 := by
  have h := c9_export_collision ⟨[["d"], ["t"]], []⟩ ["b"] ["missing"] [] "coreml" ["d"] ["t"]
  exact ⟨h.1.1, h.2.1 (by decide), h.2.2.1 (by decide) (by decide) (by decide)⟩
